import Mathlib

/-!
Verification of the `shtab` bash-completion generator (`src/shtab/shtab.py`,
`src/shtab/main.py`) against its natural-language specification.

The embedding translates the Python source shallowly:
* `Choice` (the dynamic-completion marker) with its `__cmp__` / `__eq__` /
  `__lt__` methods (plus `functools.total_ordering`-derived `__gt__`),
* Python's `sorted` builtin as used on small choice collections (CPython's
  timsort on lists shorter than 64 elements: one `count_run` pass followed by
  binary-insertion sort, which is what `listsort` degenerates to there),
* the `argparse` parser tree as consumed by `print_bash_commands`: a parser has
  a `prog`, positional actions (each with an optional `choices` that is either
  a subparser dict mapping names to parsers or a list of entries), and optional
  actions carrying `option_strings`,
* `print_bash_commands.recurse`, `print_bash` and `complete`, with Python
  exceptions (KeyError on an unknown marker kind, TypeError on indexing a list
  by a string, NotImplementedError on an unknown shell) modelled as `Except`.
-/

deriving instance DecidableEq for Except

set_option maxRecDepth 100000

namespace Shtab

/-! ## Python sorting of mixed choice collections -/

/-- A dynamic completion marker: `Choice(choice_type, required=False)`. -/
structure Choice where
  type : String
  required : Bool
deriving DecidableEq, Repr

/-- An element of a positional's `choices` list: either a plain string or a
`Choice` marker (`isinstance(opt, Choice)` distinguishes the two). -/
inductive CEntry where
  | str (s : String)
  | choice (c : Choice)
deriving DecidableEq, Repr

/-- Python truthiness of a choice-list element: a string is truthy iff
nonempty; a `Choice` object (no `__bool__`/`__len__`) is always truthy. -/
def CEntry.truthy : CEntry → Bool
  | .str s => !s.data.isEmpty
  | .choice _ => true

/-- `Choice.__cmp__(self, other)`: `0 if other else -1` when `self.required`,
else `0`. -/
def Choice.cmp (c : Choice) (other : CEntry) : Int :=
  if c.required then (if other.truthy then 0 else -1) else 0

/-- Python `<` on characters: code-point order. -/
def charLt (a b : Char) : Bool := a.val < b.val

/-- Python lexicographic `<` on strings (as lists of characters). -/
def listStrLt : List Char → List Char → Bool
  | [], [] => false
  | [], _ :: _ => true
  | _ :: _, [] => false
  | a :: as, b :: bs =>
    if charLt a b then true else if charLt b a then false else listStrLt as bs

/-- The `<` relation Python uses when sorting a mixed choices list:
`Choice.__lt__` is `cmp < 0`; `str < str` is lexicographic; `str < Choice`
falls back to the reflected `Choice.__gt__` derived by `total_ordering`
(`not (lt or eq)`, i.e. `cmp > 0`). -/
def pyLt : CEntry → CEntry → Bool
  | .str a, .str b => listStrLt a.data b.data
  | .choice c, e => decide (Choice.cmp c e < 0)
  | .str a, .choice c => decide (0 < Choice.cmp c (.str a))

/-- Python `==` between a `Choice` and another entry (`cmp == 0`); used only
in statements about the comparator. -/
def pyEqChoice (c : Choice) (e : CEntry) : Bool := decide (Choice.cmp c e = 0)

/-- `count_run` descending branch of CPython's list sort: longest strictly
descending run. Returns the run (after the two seed elements) and the rest. -/
def descRun (lt : α → α → Bool) : α → List α → List α × List α
  | _, [] => ([], [])
  | prev, x :: rest =>
    if lt x prev then
      let p := descRun lt x rest
      (x :: p.1, p.2)
    else ([], x :: rest)

/-- `count_run` ascending branch: longest weakly ascending run
(extends while `not (next < prev)`). -/
def ascRun (lt : α → α → Bool) : α → List α → List α × List α
  | _, [] => ([], [])
  | prev, x :: rest =>
    if lt x prev then ([], x :: rest)
    else
      let p := ascRun lt x rest
      (x :: p.1, p.2)

/-- Binary search for the insertion point used by CPython's `binarysort`:
first position `p` in `[l, r)` with `pivot < a[p]`.  The extra fuel argument
only bounds the iteration count (it never runs out when starting from
`fuel = r - l`, since `r - l` shrinks every step). -/
def binPosAux (lt : α → α → Bool) (x : α) (arr : List α) :
    Nat → Nat → Nat → Nat
  | 0, l, _ => l
  | fuel + 1, l, r =>
    if l < r then
      let m := l + (r - l) / 2
      if lt x (arr.getD m x) then binPosAux lt x arr fuel l m
      else binPosAux lt x arr fuel (m + 1) r
    else l

/-- Insertion point of `x` into the sorted prefix `arr`. -/
def binPos (lt : α → α → Bool) (x : α) (arr : List α) : Nat :=
  binPosAux lt x arr arr.length 0 arr.length

/-- Insert at a position (list version of `binarysort`'s memmove). -/
def insertAtPos : Nat → α → List α → List α
  | 0, x, l => x :: l
  | _ + 1, x, [] => [x]
  | n + 1, x, a :: l => a :: insertAtPos n x l

/-- `binarysort`: insert every remaining element into the sorted prefix. -/
def binarysortAux (lt : α → α → Bool) : List α → List α → List α
  | acc, [] => acc
  | acc, x :: rest => binarysortAux lt (insertAtPos (binPos lt x acc) x acc) rest

/-- CPython's `sorted` on a list of fewer than 64 elements: find the initial
run (reversing a strictly descending one), then binary-insert the rest. -/
def pySorted (lt : α → α → Bool) : List α → List α
  | [] => []
  | [a] => [a]
  | a :: b :: rest =>
    if lt b a then
      let p := descRun lt b rest
      binarysortAux lt (List.reverse (a :: b :: p.1)) p.2
    else
      let p := ascRun lt b rest
      binarysortAux lt (a :: b :: p.1) p.2

/-- Python `sorted` over a dict iterates (and sorts) its string keys. -/
def pyStrLt (a b : String) : Bool := listStrLt a.data b.data

/-! ## The argparse parser tree as consumed by `print_bash_commands` -/

mutual

/-- An `argparse.ArgumentParser` as observed by the generator: `prog`, the
positional actions (`parser._get_positional_actions()`), and the optional
actions, each carrying its `option_strings` list (flattened by
`get_optional_actions` via `sum(..., [])`). -/
inductive ArgParser where
  | mk (prog : String) (positionals : List Positional) (optionals : List (List String))

/-- A positional action: `dest` plus its `choices` attribute (`none` models
Python `None`). -/
inductive Positional where
  | mk (dest : String) (choices : Option ChoicesV)

/-- A positional's `choices`: a subparser action holds a dict mapping
subcommand name to parser; an ordinary action holds a list of entries
(strings and/or `Choice` markers). -/
inductive ChoicesV where
  | dict (entries : List (String × ArgParser))
  | list (entries : List CEntry)

end

def ArgParser.prog : ArgParser → String
  | .mk p _ _ => p

def ArgParser.positionals : ArgParser → List Positional
  | .mk _ ps _ => ps

def ArgParser.optionals : ArgParser → List (List String)
  | .mk _ _ os => os

/-- `get_optional_actions(parser)`: flattened `option_strings`. -/
def get_optional_actions (p : ArgParser) : List String :=
  p.optionals.flatten

/-- Python truthiness of a `choices` value (`if sub.choices:`):
an empty dict or list is falsy. -/
def ChoicesV.istruthy : ChoicesV → Bool
  | .dict es => !es.isEmpty
  | .list es => !es.isEmpty

/-- Iterating `for opt in sub.choices`: a dict yields its keys in insertion
order, a list its elements; `if not isinstance(opt, Choice)` keeps the
non-marker entries. -/
def entryStrings : ChoicesV → List String
  | .dict es => es.map (fun e => e.1)
  | .list es => es.filterMap (fun e =>
      match e with
      | .str s => some s
      | .choice _ => none)

/-- One positional's contribution to the option comprehension: nothing
unless its `choices` is truthy. -/
def gatherChoiceOpt : Option ChoicesV → List String
  | some c => if c.istruthy then entryStrings c else []
  | none => []

/-- The list comprehension at the top of the non-root branch:
`[opt for sub in positionals if sub.choices for opt in sub.choices
  if not isinstance(opt, Choice)]`. -/
def gatherChoiceStrings : List Positional → List String
  | [] => []
  | .mk _ ch :: rest => gatherChoiceOpt ch ++ gatherChoiceStrings rest

/-- `CHOICE_FUNCTIONS` from the source. -/
def CHOICE_FUNCTIONS : List (String × String) :=
  [("file", "_shtab_compgen_files"), ("directory", "_shtab_compgen_files")]

/-- A line printed into the `bash` buffer by `recurse`: either a vocabulary
declaration `{prefix}='{opts}'` (opts kept as the word list that
`" ".join` receives) or `{prefix}_COMPGEN={fn}`. -/
inductive Line where
  | vocab (pre : String) (opts : List String)
  | compgen (pre : String) (fn : String)
deriving DecidableEq, Repr

/-- `cmd.replace("-", "_")` (single-character pattern, so a per-character
substitution). -/
def sanitize (s : String) : String :=
  String.mk (s.data.map (fun c => if c = '-' then '_' else c))

/-- Processing the sorted entries of a list-valued `choices`: a `Choice`
prints `{prefix}_COMPGEN={choice_type2fn[cmd.type]}` (KeyError when the type
is missing from the merged table); a plain string `cmd` reaches
`sub.choices[cmd]`, which raises TypeError on a list. -/
def recurseListEntries (table : List (String × String)) (pre : String) :
    List CEntry → Except String (List Line)
  | [] => .ok []
  | .choice c :: rest =>
    match table.lookup c.type with
    | none => .error ("KeyError: " ++ c.type)
    | some fn =>
      match recurseListEntries table pre rest with
      | .error e => .error e
      | .ok lines => .ok (Line.compgen pre fn :: lines)
  | .str _ :: _ => .error "TypeError: list indices must be integers, not str"

/-- Walking the sorted keys of a subparser dict: each key is appended to
`commands` and the corresponding subparser's (already computed) recursion
result is spliced in; `sub.choices[cmd]` is the first binding of the key. -/
def assembleDict
    (results : List (String × Except String (List Line × List String × List String))) :
    List String → Except String (List Line × List String)
  | [] => .ok ([], [])
  | k :: ks =>
    match results.lookup k with
    | none => .error "KeyError"
    | some (.error e) => .error e
    | some (.ok (lines, _, _)) =>
      match assembleDict results ks with
      | .error e => .error e
      | .ok (lines2, cmds2) => .ok (lines ++ lines2, k :: cmds2)

mutual

/-- `print_bash_commands.recurse(parser, prefix)`.  Returns the printed lines,
the `commands` list of this call, and the `root_options` list (the closure
variable: extended exactly at the root, read everywhere else). -/
def recurseNode (rootPre : String) (table : List (String × String))
    (ropts : List String) : ArgParser → String →
    Except String (List Line × List String × List String)
  | .mk _ positionals optionals, pre =>
    if pre = rootPre then
      let ropts2 := ropts ++ optionals.flatten
      match recursePositionals rootPre table ropts2 positionals pre with
      | .error e => .error e
      | .ok (lines, cmds) => .ok (lines, cmds, ropts2)
    else
      let optsAll := gatherChoiceStrings positionals ++ optionals.flatten
      let opts := optsAll.filter (fun i => !ropts.contains i)
      match recursePositionals rootPre table ropts positionals pre with
      | .error e => .error e
      | .ok (lines, cmds) => .ok (Line.vocab pre opts :: lines, cmds, ropts)

/-- The body of one `for sub in positionals:` iteration: nothing happens
unless `sub.choices` is truthy (`None`, an empty list and an empty dict are
all skipped with only a diagnostic). -/
def recurseChoiceOpt (rootPre : String) (table : List (String × String))
    (ropts : List String) : Option ChoicesV → String →
    Except String (List Line × List String)
  | none, _ => .ok ([], [])
  | some c, pre =>
    if c.istruthy then recurseChoices rootPre table ropts c pre
    else .ok ([], [])

/-- The `for sub in positionals:` loop. -/
def recursePositionals (rootPre : String) (table : List (String × String))
    (ropts : List String) : List Positional → String →
    Except String (List Line × List String)
  | [], _ => .ok ([], [])
  | .mk _ ch :: rest, pre =>
    match recurseChoiceOpt rootPre table ropts ch pre with
    | .error e => .error e
    | .ok (l1, c1) =>
      match recursePositionals rootPre table ropts rest pre with
      | .error e => .error e
      | .ok (l2, c2) => .ok (l1 ++ l2, c1 ++ c2)

/-- The `for cmd in sorted(sub.choices):` loop over one truthy `choices`. -/
def recurseChoices (rootPre : String) (table : List (String × String))
    (ropts : List String) : ChoicesV → String →
    Except String (List Line × List String)
  | .dict es, pre =>
    assembleDict (recurseDictEntries rootPre table ropts es pre)
      (pySorted pyStrLt (es.map (fun e => e.1)))
  | .list es, pre =>
    match recurseListEntries table pre (pySorted pyLt es) with
    | .error e => .error e
    | .ok lines => .ok (lines, [])

/-- Recursion results for every dict binding, keyed by the subcommand name:
the recursive call uses `prefix + "_" + cmd.replace("-", "_")`. -/
def recurseDictEntries (rootPre : String) (table : List (String × String))
    (ropts : List String) : List (String × ArgParser) → String →
    List (String × Except String (List Line × List String × List String))
  | [], _ => []
  | (k, q) :: rest, pre =>
    (k, recurseNode rootPre table ropts q (pre ++ "_" ++ sanitize k)) ::
      recurseDictEntries rootPre table ropts rest pre

end

/-- `print_bash_commands(root_parser, root_prefix, choice_functions)`:
merge the marker table (caller entries win) and start the recursion with an
empty `root_options`.  The first component is the content printed to `fd`. -/
def print_bash_commands (root : ArgParser) (rootPre : String)
    (choice_functions : List (String × String)) :
    Except String (List Line × List String × List String) :=
  recurseNode rootPre (choice_functions ++ CHOICE_FUNCTIONS) [] root rootPre

/-! ## The script emitter (`print_bash`, `complete`) -/

/-- `" ".join(words)`. -/
def joinWords : List String → String
  | [] => ""
  | [w] => w
  | w :: rest => w ++ " " ++ joinWords rest

/-- Rendering of one printed line (`print` appends a newline). -/
def Line.render : Line → String
  | .vocab pre opts => pre ++ "=\x27" ++ joinWords opts ++ "\x27"
  | .compgen pre fn => pre ++ "_COMPGEN=" ++ fn

/-- Contents of the `bash = io.StringIO()` buffer after the traversal. -/
def renderLines : List Line → String
  | [] => ""
  | l :: rest => l.render ++ "\n" ++ renderLines rest

/-- `root_prefix = "_shtab_" + (root_prefix or parser.prog)`: a `None` or
empty (falsy) caller prefix falls back to `parser.prog`, verbatim. -/
def effectiveRootPre (rp : Option String) (prog : String) : String :=
  "_shtab_" ++
    (match rp with
     | none => prog
     | some s => if s.data.isEmpty then prog else s)

/-- Head of the emitted script: the `str.format` template of `print_bash`
(banner plus the three root declarations and the per-node block). -/
def scriptHead (rp commands options global_options subcommands : String) : String :=
  "#!/usr/bin/env bash\n# AUTOMATCALLY GENERATED by \x60shtab\x60\n\n"
  ++ rp ++ "_commands_=\x27" ++ commands ++ "\x27\n"
  ++ rp ++ "_options_=\x27" ++ options ++ "\x27\n"
  ++ rp ++ "_global_options_=\x27" ++ global_options ++ "\x27\n\n"
  ++ subcommands ++ "\n\n"

/-- `"# Preamble\n" + preamble + "\n# End Preamble\n" if preamble else ""`. -/
def preambleBlock (preamble : String) : String :=
  if preamble.data.isEmpty then ""
  else "# Preamble\n" ++ preamble ++ "\n# End Preamble\n"

/-- Tail of the emitted script: the fixed dispatcher template with
`.replace("{root_prefix}", root_prefix)` applied (every occurrence of the
pattern, including the ones inside `"$\x7broot_prefix\x7d_..."`, is spliced;
`str.replace` never rescans its replacement, so splicing at the occurrence
sites is exact). -/
def dispatcherTail (rp : String) : String :=
  "\n# $1=COMP_WORDS[1]\n_shtab_compgen_files() \x7b\n  compgen -f -- $1\n"
  ++ "  compgen -d -S \x27/\x27 -- $1  # recurse into subdirs\n\x7d\n\n"
  ++ "# $1=COMP_WORDS[1]\n_shtab_replace_hyphen() \x7b\n"
  ++ "  echo $1 | sed \x27s/-/_/g\x27\n\x7d\n\n"
  ++ "# $1=COMP_WORDS[1]\n"
  ++ rp ++ "_compgen_command() \x7b\n"
  ++ "  local flags_list=\"" ++ rp ++ "_$(_shtab_replace_hyphen $1)\"\n"
  ++ "  local args_gen=\"$\x7bflags_list\x7d_COMPGEN\"\n"
  ++ "  COMPREPLY=( $(compgen -W "
  ++ "\"$" ++ rp ++ "_global_options_ $\x7b!flags_list\x7d\" -- \"$word\"; "
  ++ "[ -n \"$\x7b!args_gen\x7d\" ] && $\x7b!args_gen\x7d \"$word\") )\n\x7d\n\n"
  ++ "# $1=COMP_WORDS[1]\n# $2=COMP_WORDS[2]\n"
  ++ rp ++ "_compgen_subcommand() \x7b\n"
  ++ "  local flags_list=\"" ++ rp
  ++ "_$(_shtab_replace_hyphen $1)_$(_shtab_replace_hyphen $2)\"\n"
  ++ "  local args_gen=\"$\x7bflags_list\x7d_COMPGEN\"\n"
  ++ "  [ -n \"$\x7b!args_gen\x7d\" ] && local opts_more=\"$($\x7b!args_gen\x7d \"$word\")\"\n"
  ++ "  local opts=\"$\x7b!flags_list\x7d\"\n"
  ++ "  if [ -z \"$opts$opts_more\" ]; then\n"
  ++ "    " ++ rp ++ "_compgen_command $1\n"
  ++ "  else\n"
  ++ "    COMPREPLY=( $(compgen -W "
  ++ "\"$" ++ rp ++ "_global_options_ $opts\" -- \"$word\"; "
  ++ "[ -n \"$opts_more\" ] && echo \"$opts_more\") )\n"
  ++ "  fi\n\x7d\n\n"
  ++ "# Notes:\n"
  ++ "# \x60COMPREPLY\x60 contains what will be rendered after completion is triggered\n"
  ++ "# \x60word\x60 refers to the current typed word\n"
  ++ "# \x60$\x7b!var\x7d\x60 is to evaluate the content of \x60var\x60\n"
  ++ "# and expand its content as a variable\n"
  ++ "#       hello=\"world\"\n"
  ++ "#       x=\"hello\"\n"
  ++ "#       $\x7b!x\x7d ->  $\x7bhello\x7d ->  \"world\"\n"
  ++ rp ++ "() \x7b\n"
  ++ "  local word=\"$\x7bCOMP_WORDS[COMP_CWORD]\x7d\"\n\n"
  ++ "  COMPREPLY=()\n\n"
  ++ "  if [ \"$\x7bCOMP_CWORD\x7d\" -eq 1 ]; then\n"
  ++ "    case \"$word\" in\n"
  ++ "      -*) COMPREPLY=($(compgen -W \"$" ++ rp ++ "_options_\" -- \"$word\")) ;;\n"
  ++ "      *) COMPREPLY=($(compgen -W \"$" ++ rp ++ "_commands_\" -- \"$word\")) ;;\n"
  ++ "    esac\n"
  ++ "  elif [ \"$\x7bCOMP_CWORD\x7d\" -eq 2 ]; then\n"
  ++ "    " ++ rp ++ "_compgen_command $\x7bCOMP_WORDS[1]\x7d\n"
  ++ "  elif [ \"$\x7bCOMP_CWORD\x7d\" -ge 3 ]; then\n"
  ++ "    " ++ rp ++ "_compgen_subcommand $\x7bCOMP_WORDS[1]\x7d $\x7bCOMP_WORDS[2]\x7d\n"
  ++ "  fi\n\n"
  ++ "  return 0\n\x7d\n\n"
  ++ "complete -o nospace -F " ++ rp ++ " dvc"

/-- `print_bash(parser, root_prefix, fd, preamble, choice_functions)`: the
text printed onto `fd` (one `print(..., end="")` call), or the propagated
exception. -/
def print_bash (p : ArgParser) (rootPreOpt : Option String)
    (preamble : String) (choice_functions : List (String × String)) :
    Except String String :=
  let rootPre := effectiveRootPre rootPreOpt p.prog
  match print_bash_commands p rootPre choice_functions with
  | .error e => .error e
  | .ok (lines, commands, global_options) =>
    .ok (scriptHead rootPre (joinWords commands)
          (joinWords (get_optional_actions p)) (joinWords global_options)
          (renderLines lines)
        ++ preambleBlock preamble
        ++ dispatcherTail rootPre)

/-- `complete(parser, shell, **kwargs)`: returns `output.getvalue()` for the
bash shell and raises NotImplementedError otherwise. -/
def complete (p : ArgParser) (shell : String) (rootPreOpt : Option String)
    (preamble : String) (choice_functions : List (String × String)) :
    Except String String :=
  if shell = "bash" then print_bash p rootPreOpt preamble choice_functions
  else .error "NotImplementedError"

/-! ## Small observers used in the claim statements -/

/-- The text of a successful generation (empty on error). -/
def okText : Except String String → String
  | .ok s => s
  | .error _ => ""

/-- Whether a computation succeeded (no exception escaped). -/
def exceptIsOk : Except ε α → Bool
  | .ok _ => true
  | .error _ => false

/-- `b` is a suffix of `a` (on character data). -/
def strEndsWith (a b : String) : Bool :=
  List.isSuffixOf b.data a.data

/-- The namespace identifiers of the emitted vocabulary declarations, in
emission order (one per visited non-root node). -/
def vocabPres : List Line → List String
  | [] => []
  | .vocab pre _ :: rest => pre :: vocabPres rest
  | .compgen _ _ :: rest => vocabPres rest

/-- Duplicate-freeness as a boolean. -/
def nodupStr : List String → Bool
  | [] => true
  | x :: rest => !rest.contains x && nodupStr rest

/-! ## Static observers of the parser tree, used to state the claims -/

mutual

/-- Every string that occurs literally in the tree (option strings, subparser
dict keys, plain string choice entries).  `Choice` markers contribute
nothing. -/
def parserLiterals : ArgParser → List String
  | .mk _ pos opts => opts.flatten ++ positionalsLiterals pos

def positionalsLiterals : List Positional → List String
  | [] => []
  | .mk _ ch :: rest => choiceOptLiterals ch ++ positionalsLiterals rest

def choiceOptLiterals : Option ChoicesV → List String
  | some c => choicesLiterals c
  | none => []

def choicesLiterals : ChoicesV → List String
  | .dict es => dictLiterals es
  | .list es => es.filterMap (fun e =>
      match e with
      | .str s => some s
      | .choice _ => none)

def dictLiterals : List (String × ArgParser) → List String
  | [] => []
  | (k, q) :: rest => k :: (parserLiterals q ++ dictLiterals rest)

end

mutual

/-- The tree contains a `Choice` marker whose `type` is absent from the
marker table. -/
def hasUnknownMarker (table : List (String × String)) : ArgParser → Bool
  | .mk _ pos _ => hasUnknownPositionals table pos

def hasUnknownPositionals (table : List (String × String)) :
    List Positional → Bool
  | [] => false
  | .mk _ ch :: rest =>
    hasUnknownChoiceOpt table ch || hasUnknownPositionals table rest

def hasUnknownChoiceOpt (table : List (String × String)) :
    Option ChoicesV → Bool
  | some c => hasUnknownChoices table c
  | none => false

def hasUnknownChoices (table : List (String × String)) : ChoicesV → Bool
  | .dict es => hasUnknownDict table es
  | .list es => es.any (fun e =>
      match e with
      | .choice c => (table.lookup c.type).isNone
      | .str _ => false)

def hasUnknownDict (table : List (String × String)) :
    List (String × ArgParser) → Bool
  | [] => false
  | (_, q) :: rest => hasUnknownMarker table q || hasUnknownDict table rest

end

mutual

/-- Well-formedness inherited from Python dicts: every subparser dict in the
tree has pairwise distinct keys. -/
def dictsWellFormed : ArgParser → Bool
  | .mk _ pos _ => dictsWFPositionals pos

def dictsWFPositionals : List Positional → Bool
  | [] => true
  | .mk _ ch :: rest => dictsWFChoiceOpt ch && dictsWFPositionals rest

def dictsWFChoiceOpt : Option ChoicesV → Bool
  | some c => dictsWFChoices c
  | none => true

def dictsWFChoices : ChoicesV → Bool
  | .dict es => nodupStr (es.map (fun e => e.1)) && dictsWFDict es
  | .list _ => true

def dictsWFDict : List (String × ArgParser) → Bool
  | [] => true
  | (_, q) :: rest => dictsWellFormed q && dictsWFDict rest

end

/-- A subcommand name that survives sanitization unambiguously: nonempty and
free of both `-` and `_`. -/
def goodKey (k : String) : Bool :=
  !k.data.isEmpty && k.data.all (fun c => !(c = '-') && !(c = '_'))

/-- The subcommand names introduced by one `choices` value. -/
def choicesKeys : ChoicesV → List String
  | .dict es => es.map (fun e => e.1)
  | .list _ => []

/-- The subcommand names introduced by one positional's `choices`. -/
def optKeys : Option ChoicesV → List String
  | some c => choicesKeys c
  | none => []

/-- All subparser dict keys attached to one node's positionals. -/
def posKeys : List Positional → List String
  | [] => []
  | .mk _ ch :: rest => optKeys ch ++ posKeys rest

mutual

/-- Naming discipline under which node identifiers cannot collide: at every
node the subparser keys (across all its positionals) are pairwise distinct,
and every key is nonempty and hyphen- and underscore-free. -/
def goodNames : ArgParser → Bool
  | .mk _ pos _ => nodupStr (posKeys pos) && goodPositionals pos

def goodPositionals : List Positional → Bool
  | [] => true
  | .mk _ ch :: rest => goodChoiceOpt ch && goodPositionals rest

def goodChoiceOpt : Option ChoicesV → Bool
  | some c => goodChoices c
  | none => true

def goodChoices : ChoicesV → Bool
  | .list _ => true
  | .dict es => goodDict es

def goodDict : List (String × ArgParser) → Bool
  | [] => true
  | (k, q) :: rest => goodKey k && goodNames q && goodDict rest

end

/-- Every word of a vocabulary line is drawn from the given literal pool. -/
def lineWordsIn (lits : List String) : Line → Bool
  | .vocab _ opts => opts.all (fun w => lits.contains w)
  | .compgen _ _ => true

/-- No word of a vocabulary line belongs to the given (global) option pool. -/
def lineAvoidsGlobals (gopts : List String) : Line → Bool
  | .vocab _ opts => opts.all (fun w => !gopts.contains w)
  | .compgen _ _ => true

/-! ## Auxiliary lemmas: the sort permutes, strings decompose, lookups -/

theorem descRun_append (lt : α → α → Bool) (prev : α) (l : List α) :
    (descRun lt prev l).1 ++ (descRun lt prev l).2 = l := by
  induction l generalizing prev with
  | nil => rfl
  | cons x rest ih =>
    simp only [descRun]
    by_cases h : lt x prev = true
    · simp [h, ih x]
    · simp [h]

theorem ascRun_append (lt : α → α → Bool) (prev : α) (l : List α) :
    (ascRun lt prev l).1 ++ (ascRun lt prev l).2 = l := by
  induction l generalizing prev with
  | nil => rfl
  | cons x rest ih =>
    simp only [ascRun]
    by_cases h : lt x prev = true
    · simp [h]
    · simp [h, ih x]

theorem insertAtPos_perm (n : Nat) (x : α) (l : List α) :
    (insertAtPos n x l).Perm (x :: l) := by
  induction n generalizing l with
  | zero => exact List.Perm.refl _
  | succ n ih =>
    cases l with
    | nil => exact List.Perm.refl _
    | cons a as =>
      simp only [insertAtPos]
      exact ((ih as).cons a).trans (List.Perm.swap x a as)

theorem binarysortAux_perm (lt : α → α → Bool) (acc todo : List α) :
    (binarysortAux lt acc todo).Perm (acc ++ todo) := by
  induction todo generalizing acc with
  | nil => simp [binarysortAux]
  | cons x rest ih =>
    simp only [binarysortAux]
    refine (ih _).trans ?_
    refine ((insertAtPos_perm _ x acc).append_right rest).trans ?_
    exact List.perm_middle.symm

theorem pySorted_perm (lt : α → α → Bool) (l : List α) :
    (pySorted lt l).Perm l := by
  match l with
  | [] => exact List.Perm.refl _
  | [a] => exact List.Perm.refl _
  | a :: b :: rest =>
    simp only [pySorted]
    by_cases h : lt b a = true
    · rw [if_pos h]
      refine (binarysortAux_perm ..).trans ?_
      refine ((List.reverse_perm _).append_right _).trans ?_
      have hs := descRun_append lt b rest
      simp only [List.cons_append]
      rw [hs]
    · rw [if_neg h]
      refine (binarysortAux_perm ..).trans ?_
      have hs := ascRun_append lt b rest
      simp only [List.cons_append]
      rw [hs]

theorem mem_pySorted (lt : α → α → Bool) (l : List α) (x : α) :
    x ∈ pySorted lt l ↔ x ∈ l :=
  (pySorted_perm lt l).mem_iff

theorem strData_append (a b : String) : (a ++ b).data = a.data ++ b.data := by
  cases a
  cases b
  rfl

theorem strData_inj {a b : String} (h : a.data = b.data) : a = b := by
  cases a
  cases b
  exact congrArg String.mk (by simpa using h)

theorem lookup_mem [BEq α] [LawfulBEq α] {l : List (α × β)} {k : α} {v : β}
    (h : l.lookup k = some v) : (k, v) ∈ l := by
  induction l with
  | nil => simp [List.lookup] at h
  | cons a rest ih =>
    obtain ⟨k2, v2⟩ := a
    cases hbeq : (k == k2) with
    | true =>
      have hkk : k = k2 := eq_of_beq hbeq
      subst hkk
      simp only [List.lookup, hbeq, Option.some.injEq] at h
      subst h
      exact List.mem_cons_self _ _
    | false =>
      simp only [List.lookup, hbeq] at h
      exact List.mem_cons_of_mem _ (ih h)

theorem nodupStr_iff (l : List String) : nodupStr l = true ↔ l.Nodup := by
  induction l with
  | nil => simp [nodupStr]
  | cons x rest ih =>
    simp [nodupStr, ih, List.nodup_cons, List.contains]

/-- `recurseDictEntries` is pointwise: looking up a key in the results list
yields the recursion on the first parser bound to that key. -/
theorem recurseDictEntries_lookup (rootPre : String)
    (table : List (String × String)) (ropts : List String)
    (es : List (String × ArgParser)) (pre : String) (k : String) :
    (recurseDictEntries rootPre table ropts es pre).lookup k =
      (es.lookup k).map
        (fun q => recurseNode rootPre table ropts q (pre ++ "_" ++ sanitize k)) := by
  induction es with
  | nil => simp [recurseDictEntries, List.lookup]
  | cons a rest ih =>
    obtain ⟨k2, q⟩ := a
    cases hbeq : (k == k2) with
    | true =>
      have hkk : k = k2 := eq_of_beq hbeq
      subst hkk
      simp [recurseDictEntries, List.lookup]
    | false =>
      simp only [recurseDictEntries, List.lookup, hbeq]
      exact ih

/-- What a successful `assembleDict` run contains: the commands are exactly
the key list, and every line comes from the block of some key's (successful)
lookup. -/
theorem assembleDict_ok
    (results : List (String × Except String (List Line × List String × List String)))
    (ks : List String) (lines : List Line) (cmds : List String)
    (h : assembleDict results ks = .ok (lines, cmds)) :
    cmds = ks ∧
    ∀ l ∈ lines, ∃ k, k ∈ ks ∧ ∃ ls c2 r2,
      results.lookup k = some (.ok (ls, c2, r2)) ∧ l ∈ ls := by
  induction ks generalizing lines cmds with
  | nil =>
    simp only [assembleDict] at h
    obtain ⟨rfl, rfl⟩ := by simpa using h
    exact ⟨rfl, by simp⟩
  | cons k rest ih =>
    simp only [assembleDict] at h
    cases hres : results.lookup k with
    | none => simp [hres] at h
    | some r =>
      cases r with
      | error e => simp [hres] at h
      | ok triple =>
        obtain ⟨ls, c2, r2⟩ := triple
        simp only [hres] at h
        cases hrest : assembleDict results rest with
        | error e => simp [hrest] at h
        | ok pr =>
          obtain ⟨lines2, cmds2⟩ := pr
          simp only [hrest] at h
          obtain ⟨rfl, rfl⟩ := by simpa using h
          obtain ⟨hc, hl⟩ := ih lines2 cmds2 hrest
          refine ⟨by rw [hc], ?_⟩
          intro l hlmem
          rcases List.mem_append.mp hlmem with hin | hin
          · exact ⟨k, List.mem_cons_self _ _, ls, c2, r2, hres, hin⟩
          · obtain ⟨k2, hk2, rest2⟩ := hl l hin
            exact ⟨k2, List.mem_cons_of_mem _ hk2, rest2⟩

/-- If some key in the assembly order resolves to a failed recursion, the
whole assembly fails. -/
theorem assembleDict_error_of
    (results : List (String × Except String (List Line × List String × List String)))
    (ks : List String) (k : String) (hk : k ∈ ks)
    (hbad : ∀ r, results.lookup k = some r → exceptIsOk r = false) :
    exceptIsOk (assembleDict results ks) = false := by
  induction ks with
  | nil => cases hk
  | cons k2 rest ih =>
    simp only [assembleDict]
    cases hres : results.lookup k2 with
    | none => rfl
    | some r =>
      cases r with
      | error e => rfl
      | ok triple =>
        obtain ⟨ls, c2, r2⟩ := triple
        have hk2 : k ∈ rest := by
          rcases List.mem_cons.mp hk with rfl | h2
          · exact absurd (hbad _ hres) (by simp [exceptIsOk])
          · exact h2
        have := ih hk2
        cases hrest : assembleDict results rest with
        | error e => rfl
        | ok pr => rw [hrest] at this; simp [exceptIsOk] at this

/-- `vocabPres` distributes over append. -/
theorem vocabPres_append (l1 l2 : List Line) :
    vocabPres (l1 ++ l2) = vocabPres l1 ++ vocabPres l2 := by
  induction l1 with
  | nil => rfl
  | cons x rest ih =>
    cases x <;> simp [vocabPres, ih]

/-! ## Word-provenance lemmas for C4 -/

theorem containsStr_iff (l : List String) (w : String) :
    l.contains w = true ↔ w ∈ l := by
  simp [List.contains]

theorem key_mem_dictLiterals (es : List (String × ArgParser)) (k : String)
    (h : k ∈ es.map (fun e => e.1)) : k ∈ dictLiterals es := by
  induction es with
  | nil => simp at h
  | cons a rest ih =>
    obtain ⟨k2, q⟩ := a
    simp only [List.map, List.mem_cons] at h
    rcases h with rfl | h2
    · simp [dictLiterals]
    · simp only [dictLiterals, List.mem_cons, List.mem_append]
      exact Or.inr (Or.inr (ih h2))

theorem parserLiterals_sub_dictLiterals (es : List (String × ArgParser))
    (k : String) (q : ArgParser) (h : (k, q) ∈ es) :
    ∀ w ∈ parserLiterals q, w ∈ dictLiterals es := by
  induction es with
  | nil => simp at h
  | cons a rest ih =>
    obtain ⟨k2, q2⟩ := a
    intro w hw
    simp only [dictLiterals, List.mem_cons, List.mem_append]
    rcases List.mem_cons.mp h with heq | h2
    · obtain ⟨rfl, rfl⟩ := Prod.mk.injEq .. ▸ heq
      exact Or.inr (Or.inl hw)
    · exact Or.inr (Or.inr (ih h2 w hw))

theorem entryStrings_sub (c : ChoicesV) :
    ∀ w ∈ entryStrings c, w ∈ choicesLiterals c := by
  cases c with
  | dict es => exact fun w hw => key_mem_dictLiterals es w hw
  | list es => exact fun w hw => hw

theorem gatherOpt_sub (ch : Option ChoicesV) :
    ∀ w ∈ gatherChoiceOpt ch, w ∈ choiceOptLiterals ch := by
  cases ch with
  | none => simp [gatherChoiceOpt]
  | some c =>
    intro w hw
    simp only [gatherChoiceOpt] at hw
    by_cases htr : c.istruthy = true
    · rw [if_pos htr] at hw
      exact entryStrings_sub c w hw
    · rw [if_neg htr] at hw
      simp at hw

theorem gather_sub (ps : List Positional) :
    ∀ w ∈ gatherChoiceStrings ps, w ∈ positionalsLiterals ps := by
  induction ps with
  | nil => simp [gatherChoiceStrings]
  | cons a rest ih =>
    obtain ⟨dest, ch⟩ := a
    intro w hw
    simp only [gatherChoiceStrings, List.mem_append] at hw
    simp only [positionalsLiterals, List.mem_append]
    rcases hw with hw | hw
    · exact Or.inl (gatherOpt_sub ch w hw)
    · exact Or.inr (ih w hw)

theorem lineWordsIn_mono (l1 l2 : List String) (hsub : ∀ w ∈ l1, w ∈ l2)
    (line : Line) (h : lineWordsIn l1 line = true) :
    lineWordsIn l2 line = true := by
  cases line with
  | compgen pre fn => rfl
  | vocab pre opts =>
    simp only [lineWordsIn, List.all_eq_true] at h ⊢
    intro w hw
    exact (containsStr_iff _ _).mpr (hsub w ((containsStr_iff _ _).mp (h w hw)))

/-- All lines of the list draw their vocabulary words from the pool. -/
def LinesIn (lits : List String) (lines : List Line) : Prop :=
  ∀ l ∈ lines, lineWordsIn lits l = true

theorem parserLiterals_def (prog : String) (pos : List Positional)
    (opts : List (List String)) :
    parserLiterals (.mk prog pos opts) = opts.flatten ++ positionalsLiterals pos :=
  rfl

theorem positionalsLiterals_cons (dest : String) (ch : Option ChoicesV)
    (rest : List Positional) :
    positionalsLiterals (.mk dest ch :: rest) =
      choiceOptLiterals ch ++ positionalsLiterals rest :=
  rfl

/-- Inversion of a successful `recurseNode` call. -/
theorem recurseNode_inv (rootPre : String) (table : List (String × String))
    (ropts : List String) (prog : String) (pos : List Positional)
    (opts : List (List String)) (pre : String) (lines : List Line)
    (cmds r2 : List String)
    (h : recurseNode rootPre table ropts (.mk prog pos opts) pre
          = .ok (lines, cmds, r2)) :
    (pre = rootPre ∧ r2 = ropts ++ opts.flatten ∧
      recursePositionals rootPre table (ropts ++ opts.flatten) pos pre
        = .ok (lines, cmds)) ∨
    (pre ≠ rootPre ∧ r2 = ropts ∧ ∃ lines0,
      lines = Line.vocab pre
          ((gatherChoiceStrings pos ++ opts.flatten).filter
            (fun i => !ropts.contains i)) :: lines0 ∧
      recursePositionals rootPre table ropts pos pre = .ok (lines0, cmds)) := by
  simp only [recurseNode] at h
  by_cases hroot : pre = rootPre
  · rw [if_pos hroot] at h
    cases hps : recursePositionals rootPre table (ropts ++ opts.flatten) pos pre with
    | error e => rw [hps] at h; exact absurd h (by simp)
    | ok pr =>
      obtain ⟨lines0, cmds0⟩ := pr
      rw [hps] at h
      simp only [Except.ok.injEq, Prod.mk.injEq] at h
      obtain ⟨h1, h2, h3⟩ := h
      exact Or.inl ⟨hroot, h3.symm, by rw [h1, h2]⟩

  · rw [if_neg hroot] at h
    cases hps : recursePositionals rootPre table ropts pos pre with
    | error e => rw [hps] at h; exact absurd h (by simp)
    | ok pr =>
      obtain ⟨lines0, cmds0⟩ := pr
      rw [hps] at h
      simp only [Except.ok.injEq, Prod.mk.injEq] at h
      obtain ⟨h1, h2, h3⟩ := h
      exact Or.inr ⟨hroot, h3.symm, lines0, h1.symm, by rw [h2]⟩

/-- Inversion of a successful `recursePositionals` step. -/
theorem recursePositionals_inv (rootPre : String)
    (table : List (String × String)) (ropts : List String) (dest : String)
    (ch : Option ChoicesV) (rest : List Positional) (pre : String)
    (lines : List Line) (cmds : List String)
    (h : recursePositionals rootPre table ropts (.mk dest ch :: rest) pre
          = .ok (lines, cmds)) :
    ∃ l1 c1 l2 c2, lines = l1 ++ l2 ∧ cmds = c1 ++ c2 ∧
      recurseChoiceOpt rootPre table ropts ch pre = .ok (l1, c1) ∧
      recursePositionals rootPre table ropts rest pre = .ok (l2, c2) := by
  simp only [recursePositionals] at h
  cases hco : recurseChoiceOpt rootPre table ropts ch pre with
  | error e => rw [hco] at h; exact absurd h (by simp)
  | ok pr1 =>
    obtain ⟨l1, c1⟩ := pr1
    rw [hco] at h
    cases hrest : recursePositionals rootPre table ropts rest pre with
    | error e => rw [hrest] at h; exact absurd h (by simp)
    | ok pr2 =>
      obtain ⟨l2, c2⟩ := pr2
      rw [hrest] at h
      simp only [Except.ok.injEq, Prod.mk.injEq] at h
      obtain ⟨h1, h2⟩ := h
      exact ⟨l1, c1, l2, c2, h1.symm, h2.symm, rfl, rfl⟩

/-- Inversion of one positional's choices handling. -/
theorem recurseChoiceOpt_inv (rootPre : String)
    (table : List (String × String)) (ropts : List String)
    (ch : Option ChoicesV) (pre : String) (lines : List Line)
    (cmds : List String)
    (h : recurseChoiceOpt rootPre table ropts ch pre = .ok (lines, cmds)) :
    (∃ c, ch = some c ∧ c.istruthy = true ∧
      recurseChoices rootPre table ropts c pre = .ok (lines, cmds)) ∨
    (lines = [] ∧ cmds = []) := by
  cases ch with
  | none =>
    simp only [recurseChoiceOpt, Except.ok.injEq, Prod.mk.injEq] at h
    exact Or.inr ⟨h.1.symm, h.2.symm⟩
  | some c =>
    simp only [recurseChoiceOpt] at h
    by_cases htr : c.istruthy = true
    · rw [if_pos htr] at h
      exact Or.inl ⟨c, rfl, htr, h⟩
    · rw [if_neg htr] at h
      simp only [Except.ok.injEq, Prod.mk.injEq] at h
      exact Or.inr ⟨h.1.symm, h.2.symm⟩

/-- Inversion of a successful list-`choices` traversal. -/
theorem recurseChoicesList_inv (rootPre : String)
    (table : List (String × String)) (ropts : List String) (es : List CEntry)
    (pre : String) (lines : List Line) (cmds : List String)
    (h : recurseChoices rootPre table ropts (.list es) pre = .ok (lines, cmds)) :
    recurseListEntries table pre (pySorted pyLt es) = .ok lines ∧ cmds = [] := by
  simp only [recurseChoices] at h
  cases hle : recurseListEntries table pre (pySorted pyLt es) with
  | error e => rw [hle] at h; exact absurd h (by simp)
  | ok ls =>
    rw [hle] at h
    simp only [Except.ok.injEq, Prod.mk.injEq] at h
    obtain ⟨rfl, rfl⟩ := h
    exact ⟨rfl, rfl⟩

/-- A successful list-`choices` traversal prints only `_COMPGEN` lines. -/
theorem recurseListEntries_compgen (table : List (String × String))
    (pre : String) (l : List CEntry) (ls : List Line)
    (h : recurseListEntries table pre l = .ok ls) :
    ∀ x ∈ ls, ∃ fn, x = Line.compgen pre fn := by
  induction l generalizing ls with
  | nil =>
    simp only [recurseListEntries, Except.ok.injEq] at h
    subst h
    simp
  | cons e rest ih =>
    cases e with
    | str s => simp [recurseListEntries] at h
    | choice c =>
      simp only [recurseListEntries] at h
      cases hlk : table.lookup c.type with
      | none => rw [hlk] at h; exact absurd h (by simp)
      | some fn =>
        rw [hlk] at h
        cases hrest : recurseListEntries table pre rest with
        | error e2 => rw [hrest] at h; exact absurd h (by simp)
        | ok ls2 =>
          rw [hrest] at h
          simp only [Except.ok.injEq] at h
          subst h
          intro x hx
          rcases List.mem_cons.mp hx with rfl | hx2
          · exact ⟨fn, rfl⟩
          · exact ih ls2 hrest x hx2

mutual

theorem c4Node (rootPre : String) (table : List (String × String))
    (ropts : List String) (p : ArgParser) (pre : String) (lines : List Line)
    (cmds r2 : List String)
    (h : recurseNode rootPre table ropts p pre = .ok (lines, cmds, r2)) :
    LinesIn (parserLiterals p) lines ∧ ∀ c ∈ cmds, c ∈ parserLiterals p :=
  match p, h with
  | .mk prog pos opts, h => by
    have hsub : ∀ w ∈ positionalsLiterals pos,
        w ∈ parserLiterals (.mk prog pos opts) := by
      intro w hw
      rw [parserLiterals_def]
      exact List.mem_append.mpr (Or.inr hw)
    rcases recurseNode_inv rootPre table ropts prog pos opts pre lines cmds r2 h with
      ⟨_, _, hps⟩ | ⟨_, _, lines0, hval, hps⟩
    · obtain ⟨hl, hc⟩ := c4Positionals rootPre table (ropts ++ opts.flatten)
        pos pre lines cmds hps
      exact ⟨fun l hlm => lineWordsIn_mono _ _ hsub l (hl l hlm),
        fun c hcm => hsub c (hc c hcm)⟩
    · obtain ⟨hl, hc⟩ := c4Positionals rootPre table ropts pos pre lines0 cmds hps
      subst hval
      constructor
      · intro l hlm
        rcases List.mem_cons.mp hlm with rfl | hlm2
        · simp only [lineWordsIn, List.all_eq_true]
          intro w hw
          have hw2 := List.mem_of_mem_filter hw
          refine (containsStr_iff _ _).mpr ?_
          simp only [List.mem_append] at hw2
          rw [parserLiterals_def]
          refine List.mem_append.mpr ?_
          rcases hw2 with hw2 | hw2
          · exact Or.inr (gather_sub pos w hw2)
          · exact Or.inl hw2
        · exact lineWordsIn_mono _ _ hsub l (hl l hlm2)
      · exact fun c hcm => hsub c (hc c hcm)
termination_by structural p

theorem c4Positionals (rootPre : String) (table : List (String × String))
    (ropts : List String) (ps : List Positional) (pre : String)
    (lines : List Line) (cmds : List String)
    (h : recursePositionals rootPre table ropts ps pre = .ok (lines, cmds)) :
    LinesIn (positionalsLiterals ps) lines ∧
      ∀ c ∈ cmds, c ∈ positionalsLiterals ps :=
  match ps, h with
  | [], h => by
    simp only [recursePositionals, Except.ok.injEq, Prod.mk.injEq] at h
    obtain ⟨rfl, rfl⟩ := h
    exact ⟨fun l hl => absurd hl (by simp), fun c hc => absurd hc (by simp)⟩
  | .mk dest ch :: rest, h => by
    obtain ⟨l1, c1, l2, c2, rfl, rfl, hco, hrest⟩ :=
      recursePositionals_inv rootPre table ropts dest ch rest pre lines cmds h
    obtain ⟨hl2, hc2⟩ := c4Positionals rootPre table ropts rest pre l2 c2 hrest
    obtain ⟨hl1, hc1⟩ := c4ChoiceOpt rootPre table ropts ch pre l1 c1 hco
    have hsubrest : ∀ w ∈ positionalsLiterals rest,
        w ∈ positionalsLiterals (Positional.mk dest ch :: rest) := by
      intro w hw
      rw [positionalsLiterals_cons]
      exact List.mem_append.mpr (Or.inr hw)
    have hsubhead : ∀ w ∈ choiceOptLiterals ch,
        w ∈ positionalsLiterals (Positional.mk dest ch :: rest) := by
      intro w hw
      rw [positionalsLiterals_cons]
      exact List.mem_append.mpr (Or.inl hw)
    constructor
    · intro l hlm
      rcases List.mem_append.mp hlm with hin | hin
      · exact lineWordsIn_mono _ _ hsubhead l (hl1 l hin)
      · exact lineWordsIn_mono _ _ hsubrest l (hl2 l hin)
    · intro c hcm
      rcases List.mem_append.mp hcm with hin | hin
      · exact hsubhead c (hc1 c hin)
      · exact hsubrest c (hc2 c hin)
termination_by structural ps

theorem c4ChoiceOpt (rootPre : String) (table : List (String × String))
    (ropts : List String) (ch : Option ChoicesV) (pre : String)
    (lines : List Line) (cmds : List String)
    (h : recurseChoiceOpt rootPre table ropts ch pre = .ok (lines, cmds)) :
    LinesIn (choiceOptLiterals ch) lines ∧
      ∀ x ∈ cmds, x ∈ choiceOptLiterals ch :=
  match ch, h with
  | none, h => by
    simp only [recurseChoiceOpt, Except.ok.injEq, Prod.mk.injEq] at h
    obtain ⟨rfl, rfl⟩ := h
    exact ⟨fun l hl => absurd hl (by simp), fun x hx => absurd hx (by simp)⟩
  | some c, h => by
    simp only [recurseChoiceOpt] at h
    by_cases htr : c.istruthy = true
    · rw [if_pos htr] at h
      exact c4Choices rootPre table ropts c pre lines cmds h
    · rw [if_neg htr] at h
      simp only [Except.ok.injEq, Prod.mk.injEq] at h
      obtain ⟨rfl, rfl⟩ := h
      exact ⟨fun l hl => absurd hl (by simp), fun x hx => absurd hx (by simp)⟩
termination_by structural ch

theorem c4Choices (rootPre : String) (table : List (String × String))
    (ropts : List String) (c : ChoicesV) (pre : String) (lines : List Line)
    (cmds : List String)
    (h : recurseChoices rootPre table ropts c pre = .ok (lines, cmds)) :
    LinesIn (choicesLiterals c) lines ∧ ∀ x ∈ cmds, x ∈ choicesLiterals c :=
  match c, h with
  | .list es, h => by
    obtain ⟨hle, rfl⟩ :=
      recurseChoicesList_inv rootPre table ropts es pre lines cmds h
    refine ⟨?_, fun x hx => absurd hx (by simp)⟩
    intro l hlm
    obtain ⟨fn, rfl⟩ := recurseListEntries_compgen table pre _ lines hle l hlm
    rfl
  | .dict es, h => by
    simp only [recurseChoices] at h
    obtain ⟨hc, hl⟩ := assembleDict_ok _ _ _ _ h
    constructor
    · intro l hlm
      obtain ⟨k, hkmem, ls, c2, r2, hlook, hin⟩ := hl l hlm
      rw [recurseDictEntries_lookup] at hlook
      cases hes : es.lookup k with
      | none => rw [hes] at hlook; exact absurd hlook (by simp)
      | some q =>
        rw [hes] at hlook
        simp only [Option.map_some', Option.some.injEq] at hlook
        exact c4DictAll rootPre table ropts es pre k q (lookup_mem hes)
          ls c2 r2 hlook l hin
    · intro x hx
      rw [hc] at hx
      have hx2 := (mem_pySorted _ _ _).mp hx
      exact key_mem_dictLiterals es x hx2
termination_by structural c

theorem c4DictAll (rootPre : String) (table : List (String × String))
    (ropts : List String) (es : List (String × ArgParser)) (pre : String) :
    ∀ k q, (k, q) ∈ es → ∀ lines cmds r2,
      recurseNode rootPre table ropts q (pre ++ "_" ++ sanitize k)
        = .ok (lines, cmds, r2) →
      LinesIn (dictLiterals es) lines :=
  match es with
  | [] => by
    intro k q hmem
    exact absurd hmem (by simp)
  | (k0, q0) :: rest => by
    intro k q hmem lines cmds r2 h
    rcases List.mem_cons.mp hmem with heq | hmem2
    · obtain ⟨rfl, rfl⟩ := Prod.mk.injEq .. ▸ heq.symm
      obtain ⟨hl, _⟩ := c4Node rootPre table ropts q0
        (pre ++ "_" ++ sanitize k0) lines cmds r2 h
      intro l hlm
      exact lineWordsIn_mono _ _
        (parserLiterals_sub_dictLiterals _ k0 q0 (List.mem_cons_self _ _)) l (hl l hlm)
    · have hrec := c4DictAll rootPre table ropts rest pre k q hmem2 lines cmds r2 h
      intro l hlm
      refine lineWordsIn_mono _ _ ?_ l (hrec l hlm)
      intro w hw
      simp only [dictLiterals, List.mem_cons, List.mem_append]
      exact Or.inr (Or.inr hw)
termination_by structural es

end

/-! ## Claim C4 -/

/-- The tree used to witness C4. -/
def c4Tree : ArgParser :=
  .mk "w4"
    [.mk "cmd" (some (.dict
      [("sub", .mk "sub"
        [.mk "f" (some (.list [.choice ⟨"file", false⟩]))] [["-b"]])]))]
    [["-a"]]

/-- C4: in a successful generation run, every word of every emitted
vocabulary declaration and every collected subcommand name is a string that
occurs literally in the tree (an option string, a subparser key, or a plain
string choice entry) — `Choice` markers are filtered out of the flags
comprehension by the `isinstance` test and sent to `_COMPGEN` bindings
instead of the subcommand list, so no marker ever appears as a literal
completion word. -/
theorem c4_markers_never_literal_words (p : ArgParser) (rootPre : String)
    (cf : List (String × String)) (lines : List Line)
    (cmds gopts : List String)
    (h : print_bash_commands p rootPre cf = .ok (lines, cmds, gopts)) :
    lines.all (lineWordsIn (parserLiterals p)) = true ∧
    cmds.all (fun c => (parserLiterals p).contains c) = true := by
  simp only [print_bash_commands] at h
  obtain ⟨hl, hc⟩ := c4Node _ _ _ _ _ _ _ _ h
  refine ⟨List.all_eq_true.mpr hl, List.all_eq_true.mpr ?_⟩
  intro x hx
  exact (containsStr_iff _ _).mpr (hc x hx)

/-- C4, witness at a concrete two-level tree with a marker. -/
theorem c4_witness :
    print_bash_commands c4Tree "_shtab_w4" [] =
      .ok ([Line.vocab "_shtab_w4_sub" ["-b"],
            Line.compgen "_shtab_w4_sub" "_shtab_compgen_files"],
           ["sub"], ["-a"]) ∧
    ([Line.vocab "_shtab_w4_sub" ["-b"],
      Line.compgen "_shtab_w4_sub" "_shtab_compgen_files"].all
        (lineWordsIn (parserLiterals c4Tree)) = true ∧
     (["sub"] : List String).all
        (fun c => (parserLiterals c4Tree).contains c) = true) :=
  ⟨by decide,
   c4_markers_never_literal_words c4Tree "_shtab_w4" []
     [Line.vocab "_shtab_w4_sub" ["-b"],
      Line.compgen "_shtab_w4_sub" "_shtab_compgen_files"]
     ["sub"] ["-a"] (by decide)⟩

/-! ## Claim C6 -/

/-- No vocabulary line of the list repeats a word from the pool. -/
def LinesAvoid (g : List String) (lines : List Line) : Prop :=
  ∀ l ∈ lines, lineAvoidsGlobals g l = true

/-- A sanitized extension step strictly lengthens a prefix. -/
theorem prefix_extend_len (pre k : String) :
    pre.data.length < (pre ++ "_" ++ k).data.length := by
  rw [strData_append, strData_append]
  simp only [List.length_append, List.length_cons, List.length_nil]
  omega

theorem ne_of_data_len {a b : String}
    (h : a.data.length < b.data.length) : b ≠ a := by
  intro he
  subst he
  exact Nat.lt_irrefl _ h

mutual

theorem c6Node (rootPre : String) (table : List (String × String))
    (ropts : List String) (p : ArgParser) (pre : String) (lines : List Line)
    (cmds r2 : List String)
    (hlen : rootPre.data.length < pre.data.length)
    (h : recurseNode rootPre table ropts p pre = .ok (lines, cmds, r2)) :
    r2 = ropts ∧ LinesAvoid ropts lines :=
  match p, h with
  | .mk prog pos opts, h => by
    rcases recurseNode_inv rootPre table ropts prog pos opts pre lines cmds r2 h with
      ⟨heq, _, _⟩ | ⟨_, hr2, lines0, hval, hps⟩
    · exact absurd heq (ne_of_data_len hlen)
    · subst hval
      refine ⟨hr2, ?_⟩
      have hrest := c6Positionals rootPre table ropts pos pre lines0 cmds
        (Nat.le_of_lt hlen) hps
      intro l hlm
      rcases List.mem_cons.mp hlm with rfl | hlm2
      · simp only [lineAvoidsGlobals, List.all_eq_true]
        intro w hw
        simpa using List.of_mem_filter hw
      · exact hrest l hlm2
termination_by structural p

theorem c6Positionals (rootPre : String) (table : List (String × String))
    (ropts : List String) (ps : List Positional) (pre : String)
    (lines : List Line) (cmds : List String)
    (hlen : rootPre.data.length ≤ pre.data.length)
    (h : recursePositionals rootPre table ropts ps pre = .ok (lines, cmds)) :
    LinesAvoid ropts lines :=
  match ps, h with
  | [], h => by
    simp only [recursePositionals, Except.ok.injEq, Prod.mk.injEq] at h
    obtain ⟨rfl, rfl⟩ := h
    exact fun l hl => absurd hl (by simp)
  | .mk dest ch :: rest, h => by
    obtain ⟨l1, c1, l2, c2, rfl, rfl, hco, hrest⟩ :=
      recursePositionals_inv rootPre table ropts dest ch rest pre lines cmds h
    have h1 := c6ChoiceOpt rootPre table ropts ch pre l1 c1 hlen hco
    have h2 := c6Positionals rootPre table ropts rest pre l2 c2 hlen hrest
    intro l hlm
    rcases List.mem_append.mp hlm with hin | hin
    · exact h1 l hin
    · exact h2 l hin
termination_by structural ps

theorem c6ChoiceOpt (rootPre : String) (table : List (String × String))
    (ropts : List String) (ch : Option ChoicesV) (pre : String)
    (lines : List Line) (cmds : List String)
    (hlen : rootPre.data.length ≤ pre.data.length)
    (h : recurseChoiceOpt rootPre table ropts ch pre = .ok (lines, cmds)) :
    LinesAvoid ropts lines :=
  match ch, h with
  | none, h => by
    simp only [recurseChoiceOpt, Except.ok.injEq, Prod.mk.injEq] at h
    obtain ⟨rfl, rfl⟩ := h
    exact fun l hl => absurd hl (by simp)
  | some c, h => by
    simp only [recurseChoiceOpt] at h
    by_cases htr : c.istruthy = true
    · rw [if_pos htr] at h
      exact c6Choices rootPre table ropts c pre lines cmds hlen h
    · rw [if_neg htr] at h
      simp only [Except.ok.injEq, Prod.mk.injEq] at h
      obtain ⟨rfl, rfl⟩ := h
      exact fun l hl => absurd hl (by simp)
termination_by structural ch

theorem c6Choices (rootPre : String) (table : List (String × String))
    (ropts : List String) (c : ChoicesV) (pre : String) (lines : List Line)
    (cmds : List String)
    (hlen : rootPre.data.length ≤ pre.data.length)
    (h : recurseChoices rootPre table ropts c pre = .ok (lines, cmds)) :
    LinesAvoid ropts lines :=
  match c, h with
  | .list es, h => by
    obtain ⟨hle, rfl⟩ :=
      recurseChoicesList_inv rootPre table ropts es pre lines cmds h
    intro l hlm
    obtain ⟨fn, rfl⟩ := recurseListEntries_compgen table pre _ lines hle l hlm
    rfl
  | .dict es, h => by
    simp only [recurseChoices] at h
    obtain ⟨hc, hl⟩ := assembleDict_ok _ _ _ _ h
    intro l hlm
    obtain ⟨k, hkmem, ls, c2, r2, hlook, hin⟩ := hl l hlm
    rw [recurseDictEntries_lookup] at hlook
    cases hes : es.lookup k with
    | none => rw [hes] at hlook; exact absurd hlook (by simp)
    | some q =>
      rw [hes] at hlook
      simp only [Option.map_some', Option.some.injEq] at hlook
      exact c6DictAll rootPre table ropts es pre hlen k q (lookup_mem hes)
        ls c2 r2 hlook l hin
termination_by structural c

theorem c6DictAll (rootPre : String) (table : List (String × String))
    (ropts : List String) (es : List (String × ArgParser)) (pre : String)
    (hlen : rootPre.data.length ≤ pre.data.length) :
    ∀ k q, (k, q) ∈ es → ∀ lines cmds r2,
      recurseNode rootPre table ropts q (pre ++ "_" ++ sanitize k)
        = .ok (lines, cmds, r2) →
      LinesAvoid ropts lines :=
  match es with
  | [] => by
    intro k q hmem
    exact absurd hmem (by simp)
  | (k0, q0) :: rest => by
    intro k q hmem lines cmds r2 h
    rcases List.mem_cons.mp hmem with heq | hmem2
    · obtain ⟨rfl, rfl⟩ := Prod.mk.injEq .. ▸ heq.symm
      have hlen2 : rootPre.data.length < (pre ++ "_" ++ sanitize k0).data.length :=
        Nat.lt_of_le_of_lt hlen (prefix_extend_len pre (sanitize k0))
      exact (c6Node rootPre table ropts q0 (pre ++ "_" ++ sanitize k0)
        lines cmds r2 hlen2 h).2
    · exact c6DictAll rootPre table ropts rest pre hlen k q hmem2 lines cmds r2 h
termination_by structural es

end

/-- The tree used to witness C6. -/
def c6Tree : ArgParser :=
  .mk "w6"
    [.mk "cmd" (some (.dict
      [("go", .mk "go" [] [["-v"], ["-x"]])]))]
    [["-v"]]

/-- C6: no root-level (global) option string ever appears in the flags
declaration emitted for a non-root node: the traversal collects the root's
options first and every non-root node filters its own word list by
`i not in root_options` before printing. -/
theorem c6_global_options_not_duplicated (p : ArgParser) (rootPre : String)
    (cf : List (String × String)) (lines : List Line)
    (cmds gopts : List String)
    (h : print_bash_commands p rootPre cf = .ok (lines, cmds, gopts)) :
    lines.all (lineAvoidsGlobals gopts) = true := by
  simp only [print_bash_commands] at h
  obtain ⟨prog, pos, opts⟩ := p
  rcases recurseNode_inv _ _ _ prog pos opts _ _ _ _ h with
    ⟨_, hr2, hps⟩ | ⟨hne, _, _⟩
  · subst hr2
    exact List.all_eq_true.mpr
      (c6Positionals _ _ _ pos _ _ _ (Nat.le_refl _) hps)
  · exact absurd rfl hne

/-- C6, witness: the `go` node drops the global `-v` and keeps only `-x`. -/
theorem c6_witness :
    print_bash_commands c6Tree "_shtab_w6" [] =
      .ok ([Line.vocab "_shtab_w6_go" ["-x"]], ["go"], ["-v"]) ∧
    ([Line.vocab "_shtab_w6_go" ["-x"]].all (lineAvoidsGlobals ["-v"])
      = true) :=
  ⟨by decide,
   c6_global_options_not_duplicated c6Tree "_shtab_w6" []
     [Line.vocab "_shtab_w6_go" ["-x"]] ["go"] ["-v"] (by decide)⟩

/-! ## Claim C5 -/

/-- If the list entries contain a marker whose type the table lacks, the
entry loop raises (KeyError at that marker, or an earlier exception). -/
theorem recurseListEntries_unknown (table : List (String × String))
    (pre : String) (l : List CEntry) (cc : Choice)
    (hmem : CEntry.choice cc ∈ l) (hlk : table.lookup cc.type = none) :
    exceptIsOk (recurseListEntries table pre l) = false := by
  induction l with
  | nil => simp at hmem
  | cons e rest ih =>
    cases e with
    | str s => rfl
    | choice c0 =>
      simp only [recurseListEntries]
      cases hl0 : table.lookup c0.type with
      | none => rfl
      | some fn =>
        have hmem2 : CEntry.choice cc ∈ rest := by
          rcases List.mem_cons.mp hmem with he | h2
          · injection he with he2
            subst he2
            rw [hlk] at hl0
            exact absurd hl0 (by simp)
          · exact h2
        have hrec := ih hmem2
        cases hrest : recurseListEntries table pre rest with
        | error e2 => rfl
        | ok ls => rw [hrest] at hrec; simp [exceptIsOk] at hrec

/-- An unknown marker forces its `choices` value to be truthy (the
collection is nonempty), so the loop is not skipped. -/
theorem istruthy_of_hasUnknown (table : List (String × String))
    (c : ChoicesV) (h : hasUnknownChoices table c = true) :
    c.istruthy = true := by
  cases c with
  | list es =>
    cases es with
    | nil => simp [hasUnknownChoices] at h
    | cons a r => simp [ChoicesV.istruthy]
  | dict es =>
    cases es with
    | nil => simp [hasUnknownChoices, hasUnknownDict] at h
    | cons a r => simp [ChoicesV.istruthy]

/-- In a duplicate-free dict containing a parser with an unknown marker,
some key looks up to such a parser. -/
theorem hasUnknownDict_first (table : List (String × String))
    (es : List (String × ArgParser)) (hunk : hasUnknownDict table es = true)
    (hnd : nodupStr (es.map (fun e => e.1)) = true) :
    ∃ k q, es.lookup k = some q ∧ k ∈ es.map (fun e => e.1) ∧
      hasUnknownMarker table q = true := by
  induction es with
  | nil => simp [hasUnknownDict] at hunk
  | cons a rest ih =>
    obtain ⟨k0, q0⟩ := a
    simp only [hasUnknownDict, Bool.or_eq_true] at hunk
    simp only [List.map, nodupStr, Bool.and_eq_true, Bool.not_eq_true'] at hnd
    obtain ⟨hnotin, hndrest⟩ := hnd
    rcases hunk with hu | hu
    · refine ⟨k0, q0, ?_, by simp, hu⟩
      simp [List.lookup]
    · obtain ⟨k, q, hlk, hkmem, hq⟩ := ih hu hndrest
      refine ⟨k, q, ?_, by simp [hkmem], hq⟩
      have hne : (k == k0) = false := by
        refine beq_eq_false_iff_ne.mpr ?_
        intro he
        subst he
        rw [(containsStr_iff _ _).mpr hkmem] at hnotin
        exact absurd hnotin (by simp)
      simp [List.lookup, hne, hlk]

mutual

theorem c5Node (rootPre : String) (table : List (String × String))
    (p : ArgParser) (hwf : dictsWellFormed p = true)
    (hunk : hasUnknownMarker table p = true) :
    ∀ ropts pre, exceptIsOk (recurseNode rootPre table ropts p pre) = false :=
  match p with
  | .mk prog pos opts => by
    intro ropts pre
    have h5 := c5Positionals rootPre table pos hwf hunk
    simp only [recurseNode]
    by_cases hroot : pre = rootPre
    · rw [if_pos hroot]
      cases hps : recursePositionals rootPre table (ropts ++ opts.flatten) pos pre with
      | error e => rfl
      | ok pr =>
        have hx := h5 (ropts ++ opts.flatten) pre
        rw [hps] at hx
        simp [exceptIsOk] at hx
    · rw [if_neg hroot]
      cases hps : recursePositionals rootPre table ropts pos pre with
      | error e => rfl
      | ok pr =>
        have hx := h5 ropts pre
        rw [hps] at hx
        simp [exceptIsOk] at hx
termination_by structural p

theorem c5Positionals (rootPre : String) (table : List (String × String))
    (ps : List Positional) (hwf : dictsWFPositionals ps = true)
    (hunk : hasUnknownPositionals table ps = true) :
    ∀ ropts pre,
      exceptIsOk (recursePositionals rootPre table ropts ps pre) = false :=
  match ps with
  | [] => by simp [hasUnknownPositionals] at hunk
  | .mk dest ch :: rest => by
    intro ropts pre
    simp only [dictsWFPositionals, Bool.and_eq_true] at hwf
    obtain ⟨hwf1, hwf2⟩ := hwf
    simp only [hasUnknownPositionals, Bool.or_eq_true] at hunk
    simp only [recursePositionals]
    rcases hunk with hu | hu
    · have h1 := c5ChoiceOpt rootPre table ch hwf1 hu ropts pre
      cases hco : recurseChoiceOpt rootPre table ropts ch pre with
      | error e => rfl
      | ok pr => rw [hco] at h1; simp [exceptIsOk] at h1
    · cases hco : recurseChoiceOpt rootPre table ropts ch pre with
      | error e => rfl
      | ok pr =>
        obtain ⟨l1, c1⟩ := pr
        have h2 := c5Positionals rootPre table rest hwf2 hu ropts pre
        cases hrest : recursePositionals rootPre table ropts rest pre with
        | error e => rfl
        | ok pr2 => rw [hrest] at h2; simp [exceptIsOk] at h2
termination_by structural ps

theorem c5ChoiceOpt (rootPre : String) (table : List (String × String))
    (ch : Option ChoicesV) (hwf : dictsWFChoiceOpt ch = true)
    (hunk : hasUnknownChoiceOpt table ch = true) :
    ∀ ropts pre,
      exceptIsOk (recurseChoiceOpt rootPre table ropts ch pre) = false :=
  match ch with
  | none => by simp [hasUnknownChoiceOpt] at hunk
  | some c => by
    intro ropts pre
    have htr : c.istruthy = true := istruthy_of_hasUnknown table c hunk
    simp only [recurseChoiceOpt]
    rw [if_pos htr]
    exact c5Choices rootPre table c hwf hunk ropts pre
termination_by structural ch

theorem c5Choices (rootPre : String) (table : List (String × String))
    (c : ChoicesV) (hwf : dictsWFChoices c = true)
    (hunk : hasUnknownChoices table c = true) :
    ∀ ropts pre,
      exceptIsOk (recurseChoices rootPre table ropts c pre) = false :=
  match c with
  | .list es => by
    intro ropts pre
    simp only [recurseChoices]
    obtain ⟨e, hemem, hprop⟩ := List.any_eq_true.mp hunk
    have hcc : ∃ cc, e = CEntry.choice cc ∧ table.lookup cc.type = none := by
      cases e with
      | str s => simp at hprop
      | choice cc =>
        exact ⟨cc, rfl, Option.isNone_iff_eq_none.mp (by simpa using hprop)⟩
    obtain ⟨cc, rfl, hlk⟩ := hcc
    have herr := recurseListEntries_unknown table pre (pySorted pyLt es) cc
      ((mem_pySorted _ _ _).mpr hemem) hlk
    cases hle : recurseListEntries table pre (pySorted pyLt es) with
    | error e2 => rfl
    | ok ls => rw [hle] at herr; simp [exceptIsOk] at herr
  | .dict es => by
    intro ropts pre
    simp only [dictsWFChoices, Bool.and_eq_true] at hwf
    obtain ⟨hnd, hwfd⟩ := hwf
    obtain ⟨k, q, hlk, hkmem, hunkq⟩ := hasUnknownDict_first table es hunk hnd
    simp only [recurseChoices]
    refine assembleDict_error_of _ _ k ((mem_pySorted _ _ _).mpr hkmem) ?_
    intro r hr
    rw [recurseDictEntries_lookup, hlk] at hr
    simp only [Option.map_some', Option.some.injEq] at hr
    rw [← hr]
    exact c5DictAll rootPre table es hwfd k q (lookup_mem hlk) hunkq ropts
      (pre ++ "_" ++ sanitize k)
termination_by structural c

theorem c5DictAll (rootPre : String) (table : List (String × String))
    (es : List (String × ArgParser)) (hwfd : dictsWFDict es = true) :
    ∀ k q, (k, q) ∈ es → hasUnknownMarker table q = true → ∀ ropts pre,
      exceptIsOk (recurseNode rootPre table ropts q pre) = false :=
  match es with
  | [] => by
    intro k q hmem
    exact absurd hmem (by simp)
  | (k0, q0) :: rest => by
    intro k q hmem hunkq ropts pre
    simp only [dictsWFDict, Bool.and_eq_true] at hwfd
    obtain ⟨hwq0, hwrest⟩ := hwfd
    rcases List.mem_cons.mp hmem with heq | hmem2
    · obtain ⟨rfl, rfl⟩ := Prod.mk.injEq .. ▸ heq.symm
      exact c5Node rootPre table q0 hwq0 hunkq ropts pre
    · exact c5DictAll rootPre table rest hwrest k q hmem2 hunkq ropts pre
termination_by structural es

end

/-- The tree used to witness C5: a positional carrying an unknown `"url"`
marker kind. -/
def c5Tree : ArgParser :=
  .mk "w5" [.mk "u" (some (.list [.choice ⟨"url", false⟩]))] []

/-- C5: a tree containing a `Choice` whose kind is absent from the merged
built-in-plus-caller marker table makes generation raise (KeyError) at
generation time, so the top-level `complete` call propagates the exception
and returns no script text.  (`dictsWellFormed` is the Python-dict
well-formedness assumption: subparser dicts have distinct keys.) -/
theorem c5_unknown_marker_fatal (p : ArgParser) (rp : Option String)
    (preamble : String) (cf : List (String × String))
    (hwf : dictsWellFormed p = true)
    (hunk : hasUnknownMarker (cf ++ CHOICE_FUNCTIONS) p = true) :
    exceptIsOk (complete p "bash" rp preamble cf) = false := by
  have h5 := c5Node (effectiveRootPre rp p.prog) (cf ++ CHOICE_FUNCTIONS) p
    hwf hunk [] (effectiveRootPre rp p.prog)
  simp only [complete, print_bash, print_bash_commands, if_true]
  cases hr : recurseNode (effectiveRootPre rp p.prog) (cf ++ CHOICE_FUNCTIONS)
      [] p (effectiveRootPre rp p.prog) with
  | error e => rfl
  | ok pr => rw [hr] at h5; simp [exceptIsOk] at h5

/-- C5, witness: the unknown kind `"url"` with no override aborts
generation. -/
theorem c5_witness :
    dictsWellFormed c5Tree = true ∧
    hasUnknownMarker ([] ++ CHOICE_FUNCTIONS) c5Tree = true ∧
    exceptIsOk (complete c5Tree "bash" none "" []) = false :=
  ⟨by decide, by decide,
   c5_unknown_marker_fatal c5Tree none "" [] (by decide) (by decide)⟩

/-! ## Claim C7, amended: identifier uniqueness under clean naming -/

/-- `id` lives in the namespace of subcommand `k` under `pre`: it is
`pre_k` itself or an extension `pre_k_...`. -/
def IdExt (pre k id : String) : Prop :=
  ∃ t, id.data = pre.data ++ '_' :: (k.data ++ t) ∧
    (t = [] ∨ ∃ r, t = '_' :: r)

/-- `id` is the identifier of the node at `pre` or of one of its
descendants. -/
def NodeId (pre id : String) : Prop :=
  id = pre ∨ ∃ t, id.data = pre.data ++ '_' :: t

/-- `id` belongs to the namespace of the well-named subcommand `k`. -/
def KeyId (pre k id : String) : Prop :=
  goodKey k = true ∧ IdExt pre k id

theorem goodKey_not_underscore (k : String) (h : goodKey k = true) :
    ∀ c ∈ k.data, c ≠ '_' := by
  simp only [goodKey, Bool.and_eq_true, List.all_eq_true] at h
  intro c hc
  have h2 := h.2 c hc
  simp only [Bool.and_eq_true] at h2
  simpa using h2.2

theorem goodKey_not_hyphen (k : String) (h : goodKey k = true) :
    ∀ c ∈ k.data, c ≠ '-' := by
  simp only [goodKey, Bool.and_eq_true, List.all_eq_true] at h
  intro c hc
  have h2 := h.2 c hc
  simp only [Bool.and_eq_true] at h2
  simpa using h2.1

/-- Sanitization is the identity on hyphen-free names. -/
theorem sanitize_eq_self (k : String) (h : ∀ c ∈ k.data, c ≠ '-') :
    sanitize k = k := by
  have hmap : k.data.map (fun c => if c = '-' then '_' else c) = k.data := by
    have : k.data.map (fun c => if c = '-' then '_' else c) = k.data.map id := by
      refine List.map_congr_left ?_
      intro c hc
      simp [h c hc]
    rw [this, List.map_id]
  cases k with
  | mk data =>
    simp only [sanitize] at *
    rw [hmap]

theorem underscore_data : ("_" : String).data = ['_'] := by decide

/-- Decomposition of an extended prefix. -/
theorem preExt_data (pre k : String) :
    (pre ++ "_" ++ k).data = pre.data ++ '_' :: k.data := by
  rw [strData_append, strData_append, underscore_data]
  simp

/-- Words over an underscore-free alphabet followed by empty-or-underscore
tails are uniquely decodable. -/
theorem keyJoin : ∀ (u v t1 t2 : List Char), (∀ c ∈ u, c ≠ '_') →
    (∀ c ∈ v, c ≠ '_') → (t1 = [] ∨ ∃ r, t1 = '_' :: r) →
    (t2 = [] ∨ ∃ r, t2 = '_' :: r) → u ++ t1 = v ++ t2 → u = v := by
  intro u
  induction u with
  | nil =>
    intro v t1 t2 _ hv h1 _ heq
    cases v with
    | nil => rfl
    | cons d v2 =>
      simp only [List.nil_append, List.cons_append] at heq
      rcases h1 with rfl | ⟨r, rfl⟩
      · exact absurd heq (by simp)
      · injection heq with ha _
        exact absurd ha.symm (hv d (by simp))
  | cons a u2 ih =>
    intro v t1 t2 hu hv h1 h2 heq
    cases v with
    | nil =>
      simp only [List.cons_append, List.nil_append] at heq
      rcases h2 with rfl | ⟨r, rfl⟩
      · exact absurd heq (by simp)
      · injection heq with ha _
        exact absurd ha (hu a (by simp))
    | cons d v2 =>
      simp only [List.cons_append] at heq
      injection heq with ha htail
      subst ha
      rw [ih v2 t1 t2 (fun c hc => hu c (by simp [hc]))
        (fun c hc => hv c (by simp [hc])) h1 h2 htail]

/-- Two well-named sibling namespaces are disjoint. -/
theorem keyId_inj (pre k1 k2 id : String) (h1 : KeyId pre k1 id)
    (h2 : KeyId pre k2 id) : k1 = k2 := by
  obtain ⟨hg1, t1, he1, hs1⟩ := h1
  obtain ⟨hg2, t2, he2, hs2⟩ := h2
  rw [he1] at he2
  have hx := List.append_cancel_left he2
  injection hx with _ hx2
  exact strData_inj (keyJoin k1.data k2.data t1 t2
    (goodKey_not_underscore k1 hg1) (goodKey_not_underscore k2 hg2)
    hs1 hs2 hx2)

/-- An id in a subcommand namespace is longer than the node's own id. -/
theorem keyId_ne_pre (pre k id : String) (h : KeyId pre k id) : id ≠ pre := by
  obtain ⟨_, t, he, _⟩ := h
  intro heq
  subst heq
  have hl := congrArg List.length he
  simp only [List.length_append, List.length_cons] at hl
  omega

/-- A namespace id under `pre_k` is a descendant id of `pre`. -/
theorem keyId_nodeId (pre k id : String) (h : KeyId pre k id) :
    NodeId pre id := by
  obtain ⟨_, t, he, _⟩ := h
  exact Or.inr ⟨k.data ++ t, he⟩

theorem goodDict_mem (es : List (String × ArgParser)) (k : String)
    (q : ArgParser) (hmem : (k, q) ∈ es) (hg : goodDict es = true) :
    goodKey k = true ∧ goodNames q = true := by
  induction es with
  | nil => simp at hmem
  | cons a rest ih =>
    obtain ⟨k0, q0⟩ := a
    simp only [goodDict, Bool.and_eq_true] at hg
    obtain ⟨⟨hgk, hgq⟩, hgrest⟩ := hg
    rcases List.mem_cons.mp hmem with heq | h2
    · obtain ⟨rfl, rfl⟩ := Prod.mk.injEq .. ▸ heq.symm
      exact ⟨hgk, hgq⟩
    · exact ih h2 hgrest

theorem goodDict_keys (es : List (String × ArgParser)) (hg : goodDict es = true) :
    ∀ k ∈ es.map (fun e => e.1), goodKey k = true := by
  intro k hk
  obtain ⟨⟨k2, q⟩, hmem, heq⟩ := List.mem_map.mp hk
  subst heq
  exact (goodDict_mem es k2 q hmem hg).1

/-- A list of `_COMPGEN` lines declares no vocabulary identifiers. -/
theorem vocabPres_of_compgen (pre : String) (lines : List Line)
    (h : ∀ l ∈ lines, ∃ fn, l = Line.compgen pre fn) :
    vocabPres lines = [] := by
  induction lines with
  | nil => rfl
  | cons l rest ih =>
    obtain ⟨fn, rfl⟩ := h l (List.mem_cons_self _ _)
    simp only [vocabPres]
    exact ih (fun l2 h2 => h l2 (List.mem_cons_of_mem _ h2))

/-- Assembling duplicate-free keys whose blocks are duplicate-free and live
in pairwise-disjoint namespaces yields a duplicate-free identifier list. -/
theorem nodup_assemble
    (results : List (String × Except String (List Line × List String × List String)))
    (pre : String) :
    ∀ (ks : List String) (lines : List Line) (cmds : List String), ks.Nodup →
      (∀ k ∈ ks, ∀ ls c2 r2, results.lookup k = some (.ok (ls, c2, r2)) →
        (vocabPres ls).Nodup ∧ ∀ id ∈ vocabPres ls, KeyId pre k id) →
      assembleDict results ks = .ok (lines, cmds) →
      (vocabPres lines).Nodup ∧
        ∀ id ∈ vocabPres lines, ∃ k, k ∈ ks ∧ KeyId pre k id := by
  intro ks
  induction ks with
  | nil =>
    intro lines cmds _ _ h
    simp only [assembleDict, Except.ok.injEq, Prod.mk.injEq] at h
    obtain ⟨rfl, rfl⟩ := h
    exact ⟨List.nodup_nil, fun id hid => absurd hid (by simp [vocabPres])⟩
  | cons k rest ih =>
    intro lines cmds hnd hprops h
    simp only [assembleDict] at h
    cases hres : results.lookup k with
    | none => rw [hres] at h; exact absurd h (by simp)
    | some r =>
      cases r with
      | error e => rw [hres] at h; exact absurd h (by simp)
      | ok triple =>
        obtain ⟨ls, c2, r2⟩ := triple
        rw [hres] at h
        cases hrest : assembleDict results rest with
        | error e => rw [hrest] at h; exact absurd h (by simp)
        | ok pr =>
          obtain ⟨lines2, cmds2⟩ := pr
          rw [hrest] at h
          simp only [Except.ok.injEq, Prod.mk.injEq] at h
          obtain ⟨h1, h2⟩ := h
          subst h1
          obtain ⟨hnd1, hq1⟩ :=
            hprops k (List.mem_cons_self _ _) ls c2 r2 hres
          obtain ⟨hnd2, hq2⟩ := ih lines2 cmds2 (List.nodup_cons.mp hnd).2
            (fun k2 hk2 => hprops k2 (List.mem_cons_of_mem _ hk2)) hrest
          rw [vocabPres_append]
          constructor
          · refine List.nodup_append.mpr ⟨hnd1, hnd2, ?_⟩
            intro id hid1 hid2
            obtain ⟨k2, hk2mem, hq⟩ := hq2 id hid2
            have hk12 : k ≠ k2 :=
              fun he => (List.nodup_cons.mp hnd).1 (he ▸ hk2mem)
            exact hk12 (keyId_inj pre k k2 id (hq1 id hid1) hq)
          · intro id hidm
            rcases List.mem_append.mp hidm with hin | hin
            · exact ⟨k, List.mem_cons_self _ _, hq1 id hin⟩
            · obtain ⟨k2, hk2mem, hq⟩ := hq2 id hin
              exact ⟨k2, List.mem_cons_of_mem _ hk2mem, hq⟩

mutual

theorem c7Node (rootPre : String) (table : List (String × String))
    (ropts : List String) (p : ArgParser) (pre : String) (lines : List Line)
    (cmds r2 : List String) (hg : goodNames p = true)
    (hlen : rootPre.data.length < pre.data.length)
    (h : recurseNode rootPre table ropts p pre = .ok (lines, cmds, r2)) :
    (vocabPres lines).Nodup ∧ ∀ id ∈ vocabPres lines, NodeId pre id :=
  match p, h with
  | .mk prog pos opts, h => by
    simp only [goodNames, Bool.and_eq_true] at hg
    obtain ⟨hnd, hgp⟩ := hg
    rcases recurseNode_inv rootPre table ropts prog pos opts pre lines cmds r2 h with
      ⟨heq, _, _⟩ | ⟨_, _, lines0, hval, hps⟩
    · exact absurd heq (ne_of_data_len hlen)
    · subst hval
      obtain ⟨hnd0, hq0⟩ := c7Positionals rootPre table ropts pos pre lines0 cmds
        hgp ((nodupStr_iff _).mp hnd) (Nat.le_of_lt hlen) hps
      simp only [vocabPres]
      constructor
      · refine List.nodup_cons.mpr ⟨?_, hnd0⟩
        intro hmem
        obtain ⟨k, _, hq⟩ := hq0 pre hmem
        exact keyId_ne_pre pre k pre hq rfl
      · intro id hid
        rcases List.mem_cons.mp hid with rfl | hid2
        · exact Or.inl rfl
        · obtain ⟨k, _, hq⟩ := hq0 id hid2
          exact keyId_nodeId pre k id hq
termination_by structural p

theorem c7Positionals (rootPre : String) (table : List (String × String))
    (ropts : List String) (ps : List Positional) (pre : String)
    (lines : List Line) (cmds : List String) (hg : goodPositionals ps = true)
    (hkeys : (posKeys ps).Nodup)
    (hlen : rootPre.data.length ≤ pre.data.length)
    (h : recursePositionals rootPre table ropts ps pre = .ok (lines, cmds)) :
    (vocabPres lines).Nodup ∧
      ∀ id ∈ vocabPres lines, ∃ k, k ∈ posKeys ps ∧ KeyId pre k id :=
  match ps, h with
  | [], h => by
    simp only [recursePositionals, Except.ok.injEq, Prod.mk.injEq] at h
    obtain ⟨rfl, rfl⟩ := h
    exact ⟨List.nodup_nil, fun id hid => absurd hid (by simp [vocabPres])⟩
  | .mk dest ch :: rest, h => by
    obtain ⟨l1, c1, l2, c2, rfl, rfl, hco, hrest⟩ :=
      recursePositionals_inv rootPre table ropts dest ch rest pre lines cmds h
    simp only [goodPositionals, Bool.and_eq_true] at hg
    obtain ⟨hg1, hg2⟩ := hg
    simp only [posKeys] at hkeys
    obtain ⟨hk1, hk2, hdisj⟩ := List.nodup_append.mp hkeys
    obtain ⟨hnd1, hq1⟩ := c7ChoiceOpt rootPre table ropts ch pre l1 c1
      hg1 hk1 hlen hco
    obtain ⟨hnd2, hq2⟩ := c7Positionals rootPre table ropts rest pre l2 c2
      hg2 hk2 hlen hrest
    rw [vocabPres_append]
    constructor
    · refine List.nodup_append.mpr ⟨hnd1, hnd2, ?_⟩
      intro id hid1 hid2
      obtain ⟨k1, hm1, hqa⟩ := hq1 id hid1
      obtain ⟨k2, hm2, hqb⟩ := hq2 id hid2
      have : k1 = k2 := keyId_inj pre k1 k2 id hqa hqb
      subst this
      exact hdisj hm1 hm2
    · intro id hidm
      simp only [posKeys]
      rcases List.mem_append.mp hidm with hin | hin
      · obtain ⟨k, hm, hq⟩ := hq1 id hin
        exact ⟨k, List.mem_append.mpr (Or.inl hm), hq⟩
      · obtain ⟨k, hm, hq⟩ := hq2 id hin
        exact ⟨k, List.mem_append.mpr (Or.inr hm), hq⟩
termination_by structural ps

theorem c7ChoiceOpt (rootPre : String) (table : List (String × String))
    (ropts : List String) (ch : Option ChoicesV) (pre : String)
    (lines : List Line) (cmds : List String) (hg : goodChoiceOpt ch = true)
    (hkeys : (optKeys ch).Nodup)
    (hlen : rootPre.data.length ≤ pre.data.length)
    (h : recurseChoiceOpt rootPre table ropts ch pre = .ok (lines, cmds)) :
    (vocabPres lines).Nodup ∧
      ∀ id ∈ vocabPres lines, ∃ k, k ∈ optKeys ch ∧ KeyId pre k id :=
  match ch, h with
  | none, h => by
    simp only [recurseChoiceOpt, Except.ok.injEq, Prod.mk.injEq] at h
    obtain ⟨rfl, rfl⟩ := h
    exact ⟨List.nodup_nil, fun id hid => absurd hid (by simp [vocabPres])⟩
  | some c, h => by
    simp only [recurseChoiceOpt] at h
    by_cases htr : c.istruthy = true
    · rw [if_pos htr] at h
      exact c7Choices rootPre table ropts c pre lines cmds hg hkeys hlen h
    · rw [if_neg htr] at h
      simp only [Except.ok.injEq, Prod.mk.injEq] at h
      obtain ⟨rfl, rfl⟩ := h
      exact ⟨List.nodup_nil, fun id hid => absurd hid (by simp [vocabPres])⟩
termination_by structural ch

theorem c7Choices (rootPre : String) (table : List (String × String))
    (ropts : List String) (c : ChoicesV) (pre : String) (lines : List Line)
    (cmds : List String) (hg : goodChoices c = true)
    (hkeys : (choicesKeys c).Nodup)
    (hlen : rootPre.data.length ≤ pre.data.length)
    (h : recurseChoices rootPre table ropts c pre = .ok (lines, cmds)) :
    (vocabPres lines).Nodup ∧
      ∀ id ∈ vocabPres lines, ∃ k, k ∈ choicesKeys c ∧ KeyId pre k id :=
  match c, h with
  | .list es, h => by
    obtain ⟨hle, rfl⟩ :=
      recurseChoicesList_inv rootPre table ropts es pre lines cmds h
    have hvp : vocabPres lines = [] :=
      vocabPres_of_compgen pre lines (recurseListEntries_compgen table pre _ lines hle)
    rw [hvp]
    exact ⟨List.nodup_nil, fun id hid => absurd hid (by simp)⟩
  | .dict es, h => by
    simp only [recurseChoices] at h
    have hsorted : (pySorted pyStrLt (es.map (fun e => e.1))).Nodup :=
      ((pySorted_perm pyStrLt _).nodup_iff).mpr hkeys
    have hprops : ∀ k ∈ pySorted pyStrLt (es.map (fun e => e.1)),
        ∀ ls cc2 rr2,
        (recurseDictEntries rootPre table ropts es pre).lookup k
          = some (.ok (ls, cc2, rr2)) →
        (vocabPres ls).Nodup ∧ ∀ id ∈ vocabPres ls, KeyId pre k id := by
      intro k hkmem ls cc2 rr2 hlook
      rw [recurseDictEntries_lookup] at hlook
      cases hes : es.lookup k with
      | none => rw [hes] at hlook; exact absurd hlook (by simp)
      | some q =>
        rw [hes] at hlook
        simp only [Option.map_some', Option.some.injEq] at hlook
        exact c7DictAll rootPre table ropts es pre hg hlen k q
          (lookup_mem hes) ls cc2 rr2 hlook
    obtain ⟨hnd, hq⟩ := nodup_assemble
      (recurseDictEntries rootPre table ropts es pre) pre
      (pySorted pyStrLt (es.map (fun e => e.1))) lines cmds hsorted hprops h
    refine ⟨hnd, ?_⟩
    intro id hid
    obtain ⟨k, hkmem, hkq⟩ := hq id hid
    exact ⟨k, (mem_pySorted _ _ _).mp hkmem, hkq⟩
termination_by structural c

theorem c7DictAll (rootPre : String) (table : List (String × String))
    (ropts : List String) (es : List (String × ArgParser)) (pre : String)
    (hg : goodDict es = true)
    (hlen : rootPre.data.length ≤ pre.data.length) :
    ∀ k q, (k, q) ∈ es → ∀ lines cmds r2,
      recurseNode rootPre table ropts q (pre ++ "_" ++ sanitize k)
        = .ok (lines, cmds, r2) →
      (vocabPres lines).Nodup ∧ ∀ id ∈ vocabPres lines, KeyId pre k id :=
  match es with
  | [] => by
    intro k q hmem
    exact absurd hmem (by simp)
  | (k0, q0) :: rest => by
    intro k q hmem lines cmds r2 h
    simp only [goodDict, Bool.and_eq_true] at hg
    obtain ⟨⟨hgk0, hgq0⟩, hgrest⟩ := hg
    rcases List.mem_cons.mp hmem with heq | hmem2
    · obtain ⟨rfl, rfl⟩ := Prod.mk.injEq .. ▸ heq.symm
      have hsan : sanitize k0 = k0 :=
        sanitize_eq_self k0 (goodKey_not_hyphen k0 hgk0)
      rw [hsan] at h
      have hlen2 : rootPre.data.length < (pre ++ "_" ++ k0).data.length :=
        Nat.lt_of_le_of_lt hlen (prefix_extend_len pre k0)
      obtain ⟨hnd, hids⟩ := c7Node rootPre table ropts q0 (pre ++ "_" ++ k0)
        lines cmds r2 hgq0 hlen2 h
      refine ⟨hnd, ?_⟩
      intro id hid
      refine ⟨hgk0, ?_⟩
      rcases hids id hid with rfl | ⟨t, ht⟩
      · exact ⟨[], by rw [preExt_data]; simp, Or.inl rfl⟩
      · refine ⟨'_' :: t, ?_, Or.inr ⟨t, rfl⟩⟩
        rw [ht, preExt_data]
        simp
    · exact c7DictAll rootPre table ropts rest pre hgrest hlen k q hmem2
        lines cmds r2 h
termination_by structural es

end

/-- The tree used to witness the amended C7. -/
def c7Good : ArgParser :=
  .mk "p"
    [.mk "cmd" (some (.dict
      [("beta", .mk "beta"
         [.mk "cmd2" (some (.dict [("gamma", .mk "gamma" [] [])]))] []),
       ("alpha", .mk "alpha" [] [])]))]
    []

/-- C7, amended: under the naming discipline `goodNames` (at every node the
subparser keys are pairwise distinct, nonempty, and free of both `-` and
`_`), every node identifier emitted by a successful traversal is unique.
Without that discipline uniqueness fails (see the sibling `foo-bar` /
`foo_bar` counterexample): hyphen sanitization can collapse sibling names,
and an underscore inside a name can collide with a deeper path. -/
theorem c7_identifiers_unique (p : ArgParser) (rootPre : String)
    (cf : List (String × String)) (lines : List Line)
    (cmds gopts : List String) (hg : goodNames p = true)
    (h : print_bash_commands p rootPre cf = .ok (lines, cmds, gopts)) :
    nodupStr (vocabPres lines) = true := by
  simp only [print_bash_commands] at h
  obtain ⟨prog, pos, opts⟩ := p
  simp only [goodNames, Bool.and_eq_true] at hg
  obtain ⟨hnd, hgp⟩ := hg
  rcases recurseNode_inv _ _ _ prog pos opts _ _ _ _ h with
    ⟨_, _, hps⟩ | ⟨hne, _, _⟩
  · exact (nodupStr_iff _).mpr
      (c7Positionals _ _ _ pos _ _ _ hgp ((nodupStr_iff _).mp hnd)
        (Nat.le_refl _) hps).1
  · exact absurd rfl hne

/-- C7, witness: a well-named two-level tree has pairwise distinct emitted
identifiers. -/
theorem c7_witness :
    goodNames c7Good = true ∧
    print_bash_commands c7Good "_shtab_p" [] =
      .ok ([Line.vocab "_shtab_p_alpha" [],
            Line.vocab "_shtab_p_beta" ["gamma"],
            Line.vocab "_shtab_p_beta_gamma" []],
           ["alpha", "beta"], []) ∧
    nodupStr (vocabPres
      [Line.vocab "_shtab_p_alpha" [],
       Line.vocab "_shtab_p_beta" ["gamma"],
       Line.vocab "_shtab_p_beta_gamma" []]) = true :=
  ⟨by decide, by decide,
   c7_identifiers_unique c7Good "_shtab_p" []
     [Line.vocab "_shtab_p_alpha" [],
      Line.vocab "_shtab_p_beta" ["gamma"],
      Line.vocab "_shtab_p_beta_gamma" []]
     ["alpha", "beta"] [] (by decide) (by decide)⟩

/-! ## Concrete trees used in counterexamples and witnesses -/

/-- The `push` node of §8's round-trip scenario. -/
def c3Push : ArgParser := .mk "push" [] [["--force"]]

/-- The `pull` node of §8's round-trip scenario. -/
def c3Pull : ArgParser :=
  .mk "pull" [.mk "file" (some (.list [.choice ⟨"file", false⟩]))] []

/-- The root of §8's round-trip scenario. -/
def c3Root : ArgParser :=
  .mk "prog"
    [.mk "command" (some (.dict [("push", c3Push), ("pull", c3Pull)]))]
    [["--verbose"]]

/-- A parser with a program name other than `dvc`. -/
def c2Parser : ArgParser := .mk "myprog" [] []

/-- Sibling subcommands whose names coincide after hyphen sanitization. -/
def c7Root : ArgParser :=
  .mk "p"
    [.mk "command" (some (.dict [("foo-bar", .mk "a" [] []),
                                 ("foo_bar", .mk "b" [] [])]))]
    []

/-! ## Claim C1 -/

/-- C1, counterexample: sorting the choice set `["push", Choice("file",
required=True)]` with the marker comparator leaves the required marker
*after* the literal sibling (`Choice.__cmp__` returns `0 if other else -1`,
and a nonempty string is truthy, so the marker compares equal — not less —
to `"push"`), refuting the claim that a required marker is placed before
every literal sibling. -/
theorem c1_counterexample :
    pySorted pyLt [CEntry.str "push", CEntry.choice ⟨"file", true⟩]
      = [CEntry.str "push", CEntry.choice ⟨"file", true⟩] ∧
    (pySorted pyLt [CEntry.str "push", CEntry.choice ⟨"file", true⟩]).head?
      = some (CEntry.str "push") := by decide

/-- C1, amended: for every marker type and every *nonempty* literal sibling,
the required marker compares equal (not less) to the sibling, so the stable
sort leaves a preceding literal sibling in front of the marker; the marker
sorts strictly before a sibling exactly when the sibling is falsy (the empty
string). -/
theorem c1_required_marker_order (t s : String) (h : s ≠ "") :
    pySorted pyLt [CEntry.str s, CEntry.choice ⟨t, true⟩]
      = [CEntry.str s, CEntry.choice ⟨t, true⟩] ∧
    pyLt (CEntry.choice ⟨t, true⟩) (CEntry.str s) = false ∧
    pyEqChoice ⟨t, true⟩ (CEntry.str s) = true ∧
    pyLt (CEntry.choice ⟨t, true⟩) (CEntry.str "") = true := by
  have hd : s.data ≠ [] := fun hnil => h (by
    cases s with
    | mk data => simp only at hnil; subst hnil; rfl)
  have ht : (CEntry.str s).truthy = true := by
    simp only [CEntry.truthy, List.isEmpty_iff]
    simpa using hd
  have hlt : pyLt (CEntry.choice ⟨t, true⟩) (CEntry.str s) = false := by
    simp [pyLt, Choice.cmp, ht]
  refine ⟨?_, hlt, ?_, ?_⟩
  · simp [pySorted, hlt, ascRun, binarysortAux]
  · simp [pyEqChoice, Choice.cmp, ht]
  · simp [pyLt, Choice.cmp, CEntry.truthy]

/-- C1, witness for the amended theorem at `t = "file"`, `s = "push"`. -/
theorem c1_witness :
    ("push" : String) ≠ "" ∧
    (pySorted pyLt [CEntry.str "push", CEntry.choice ⟨"file", true⟩]
       = [CEntry.str "push", CEntry.choice ⟨"file", true⟩] ∧
     pyLt (CEntry.choice ⟨"file", true⟩) (CEntry.str "push") = false ∧
     pyEqChoice ⟨"file", true⟩ (CEntry.str "push") = true ∧
     pyLt (CEntry.choice ⟨"file", true⟩) (CEntry.str "") = true) :=
  ⟨by decide, c1_required_marker_order "file" "push" (by decide)⟩

/-! ## Claim C2 -/

/-- C2, code bug: the generated script does not end with a registration
statement naming the completed parser's program (`myprog`); it ends with
`complete -o nospace -F _shtab_myprog dvc`, registering the dispatcher for
the hard-coded program name `dvc` regardless of the parser. -/
theorem c2_registration_hardcodes_dvc :
    exceptIsOk (complete c2Parser "bash" none "" []) = true ∧
    strEndsWith (okText (complete c2Parser "bash" none "" []))
      "complete -o nospace -F _shtab_myprog dvc" = true ∧
    strEndsWith (okText (complete c2Parser "bash" none "" [])) "myprog"
      = false := by decide

/-! ## Claim C3 -/

/-- C3, counterexample: on the §8 round-trip tree the builder returns the
root commands in *sorted* order `["pull", "push"]` (the traversal iterates
`sorted(sub.choices)`), not in the declared order `["push", "pull"]`. -/
theorem c3_counterexample :
    (print_bash_commands c3Root "_shtab_prog" []).map (fun r => r.2.1)
      = .ok ["pull", "push"] ∧
    (["pull", "push"] : List String) ≠ ["push", "pull"] := by decide

/-- C3, amended: the round-trip scenario with the command order corrected to
the sorted order: root commands `["pull", "push"]`, root (global) flags
`["--verbose"]`, the `push` node's vocabulary `--force`, and the `pull`
node's vocabulary empty with its `_COMPGEN` bound to
`_shtab_compgen_files`. -/
theorem c3_round_trip_sorted :
    print_bash_commands c3Root "_shtab_prog" [] =
      .ok ([Line.vocab "_shtab_prog_pull" [],
            Line.compgen "_shtab_prog_pull" "_shtab_compgen_files",
            Line.vocab "_shtab_prog_push" ["--force"]],
           ["pull", "push"], ["--verbose"]) := by decide

/-! ## Claim C7, counterexample -/

/-- C7, counterexample: sibling subcommands `foo-bar` and `foo_bar` sanitize
to the same segment, so the traversal emits the identifier
`_shtab_p_foo_bar` twice — node identifiers are not unique for such trees. -/
theorem c7_counterexample :
    (print_bash_commands c7Root "_shtab_p" []).map (fun r => vocabPres r.1)
      = .ok ["_shtab_p_foo_bar", "_shtab_p_foo_bar"] ∧
    nodupStr ["_shtab_p_foo_bar", "_shtab_p_foo_bar"] = false := by decide

/-! ## Claim C8 -/

/-- C8: generation is a pure function of the parser tree, the prefix, the
preamble and the marker table — two invocations of `complete` on unchanged
inputs return byte-identical script text.  The embedding is pure because the
source computes the script from its arguments alone (its only side effect is
diagnostic logging). -/
theorem c8_generation_deterministic (p : ArgParser) (rp : Option String)
    (preamble : String) (cf : List (String × String)) :
    complete p "bash" rp preamble cf = complete p "bash" rp preamble cf := rfl

/-! ## Claim C9 -/

/-- C9, counterexample: with no caller prefix and `prog = "my-tool"`, the
prefix used for emitted identifiers is `_shtab_my-tool` — the program name
verbatim, *not* its hyphen-sanitized form — and that unsanitized prefix
flows into the emitted registration line. -/
theorem c9_counterexample :
    effectiveRootPre none "my-tool" = "_shtab_my-tool" ∧
    "_shtab_my-tool" ≠ "_shtab_" ++ sanitize "my-tool" ∧
    strEndsWith (okText (complete (.mk "my-tool" [] []) "bash" none "" []))
      "complete -o nospace -F _shtab_my-tool dvc" = true := by decide

/-- C9, amended: when the caller supplies no prefix (or an empty, falsy one),
the prefix defaults to `"_shtab_" +` the root program's declared name
*verbatim* — no hyphen sanitization is applied. -/
theorem c9_default_prefix_verbatim (prog : String) :
    effectiveRootPre none prog = "_shtab_" ++ prog ∧
    effectiveRootPre (some "") prog = "_shtab_" ++ prog := by
  constructor <;> rfl

/-! ## Claim C10 -/

/-- C10: the built-in marker table maps both `"file"` and `"directory"` to
the same generator function name `_shtab_compgen_files`. -/
theorem c10_builtin_marker_table :
    CHOICE_FUNCTIONS.lookup "file" = some "_shtab_compgen_files" ∧
    CHOICE_FUNCTIONS.lookup "directory" = some "_shtab_compgen_files" := by
  decide

end Shtab
